import Mathlib

/-
Verification of the grafeo property-graph engine:
columnar property storage with zone maps (crates/grafeo-core/src/graph/lpg/property.rs)
and the Gremlin-to-LogicalPlan translator (crates/grafeo-engine/src/query/gremlin_translator.rs).
Rust machine integers carry no arithmetic here beyond comparison, counter increments
and one checked subtraction, so they are modelled as Nat/Int; f64 payloads are
modelled as rationals (none = NaN).
-/

namespace Grafeo

/-- Three-way comparison on a linear order, mirroring Rust `Ord::cmp` (and
`PartialOrd::partial_cmp` restricted to the totally ordered payloads). -/
def cmp3 {α : Type _} [LinearOrder α] (a b : α) : Ordering :=
  if a < b then .lt else if a = b then .eq else .gt

theorem cmp3_eq_lt {α : Type _} [LinearOrder α] {a b : α} : cmp3 a b = .lt ↔ a < b := by
  unfold cmp3
  split_ifs with h1 h2
  · simpa using h1
  · simpa using h1
  · simpa using h1

theorem cmp3_eq_eq {α : Type _} [LinearOrder α] {a b : α} : cmp3 a b = .eq ↔ a = b := by
  unfold cmp3
  split_ifs with h1 h2
  · simpa using ne_of_lt h1
  · simpa using h2
  · simpa using h2

theorem cmp3_eq_gt {α : Type _} [LinearOrder α] {a b : α} : cmp3 a b = .gt ↔ b < a := by
  unfold cmp3
  split_ifs with h1 h2
  · simpa using lt_asymm h1
  · subst h2
    simpa using lt_irrefl a
  · simpa using lt_of_le_of_ne (not_lt.mp h1) (fun h => h2 h.symm)

/-- Modelled from the spec: the tagged scalar `Value` type of grafeo-common
(crates/grafeo-common/src/types is not included under src/; the spec lists the
kinds Null, Bool, Int64, Float64, String, Bytes, List, Map).  An `Int64` payload
is an integer; a `Float64` payload is `Option ℚ` where `none` stands for NaN and
`some q` for a finite double; strings carry Lean strings (Rust String order is byte-wise
lexicographic on UTF-8, which coincides with the code-point lexicographic order
used here) and byte arrays are sequences of naturals.
The `i64 -> f64` widening cast used by `compare_values` is modelled as the exact
cast `ℤ → ℚ`; like the Rust round-to-nearest cast it is monotone, which is the
only property the zone-map development relies on. -/
inductive Value where
  | Null : Value
  | Bool (b : Bool) : Value
  | Int64 (i : ℤ) : Value
  | Float64 (q : Option ℚ) : Value
  | String (s : String) : Value
  | Bytes (bs : List ℕ) : Value
  | List (elems : List Value) : Value
  | Map (entries : List (List ℕ × Value)) : Value

/-- Result of `f64::partial_cmp` on modelled doubles: `none` as soon as an
operand is NaN, otherwise the rational comparison. -/
def fcmp : Option ℚ → Option ℚ → Option Ordering
  | some a, some b => some (cmp3 a b)
  | _, _ => none

/-- Mirror of `compare_values` in crates/grafeo-core/src/graph/lpg/property.rs:
same-kind Int64, Float64, String and Bool compare natively, Int64 and Float64
mix by widening the integer, every other pair yields `none`. -/
def compare_values : Value → Value → Option Ordering
  | .Int64 a, .Int64 b => some (cmp3 a b)
  | .Float64 a, .Float64 b => fcmp a b
  | .String a, .String b => some (cmp3 a b)
  | .Bool a, .Bool b => some (cmp3 a b)
  | .Int64 a, .Float64 b => fcmp (some ((a : ℚ))) b
  | .Float64 a, .Int64 b => fcmp a (some ((b : ℚ)))
  | _, _ => none

/-- The comparison key of a value: the projection under which `compare_values`
is a genuine comparison.  Numeric values project to their rational measure,
strings and booleans to their payload; everything else (including NaN) has no key. -/
inductive VKey where
  | num (q : ℚ) : VKey
  | str (s : String) : VKey
  | boo (b : Bool) : VKey

def key : Value → Option VKey
  | .Int64 a => some (.num ((a : ℚ)))
  | .Float64 (some q) => some (.num q)
  | .String s => some (.str s)
  | .Bool b => some (.boo b)
  | _ => none

def kcmp : VKey → VKey → Option Ordering
  | .num a, .num b => some (cmp3 a b)
  | .str a, .str b => some (cmp3 a b)
  | .boo a, .boo b => some (cmp3 a b)
  | _, _ => none

def keyComp : Option VKey → Option VKey → Option Ordering
  | some x, some y => kcmp x y
  | _, _ => none

theorem cmp3_int_cast (a b : ℤ) : cmp3 a b = cmp3 ((a : ℚ)) ((b : ℚ)) := by
  unfold cmp3
  simp only [Int.cast_lt, Int.cast_inj]

/-- Characterization of `compare_values` through comparison keys. -/
theorem compare_values_eq_keyComp (a b : Value) :
    compare_values a b = keyComp (key a) (key b) := by
  cases a <;> cases b <;>
    first
      | rfl
      | (simp only [compare_values, key, keyComp, kcmp]
         rw [cmp3_int_cast])
      | (rename_i x
         cases x <;> rfl)
      | (rename_i x y
         cases x <;> cases y <;> rfl)

theorem kcmp_eq_eq {x y : VKey} : kcmp x y = some .eq ↔ x = y := by
  cases x <;> cases y <;> simp [kcmp, cmp3_eq_eq]

theorem kcmp_lt_iff_gt {x y : VKey} : kcmp x y = some .lt ↔ kcmp y x = some .gt := by
  cases x <;> cases y <;> simp [kcmp, cmp3_eq_lt, cmp3_eq_gt]

theorem kcmp_trans_lt {x y z : VKey}
    (h1 : kcmp x y = some .lt) (h2 : kcmp y z = some .lt) : kcmp x z = some .lt := by
  cases x <;> cases y <;> cases z <;> simp_all [kcmp, cmp3_eq_lt]
  all_goals exact lt_trans h1 h2

theorem kcmp_self (x : VKey) : kcmp x x = some .eq := kcmp_eq_eq.mpr rfl

/-- Stored-versus-probe facts are handled through the key characterization:
`compare_values a b = some .eq` holds exactly when the two keys exist and agree. -/
theorem cv_eq_iff {a b : Value} :
    compare_values a b = some .eq ↔ ∃ k, key a = some k ∧ key b = some k := by
  rw [compare_values_eq_keyComp]
  cases ha : key a <;> cases hb : key b <;>
    simp [keyComp, kcmp_eq_eq, eq_comm]

theorem cv_lt_iff {a b : Value} :
    compare_values a b = some .lt ↔
      ∃ x y, key a = some x ∧ key b = some y ∧ kcmp x y = some .lt := by
  rw [compare_values_eq_keyComp]
  cases ha : key a <;> cases hb : key b <;> simp [keyComp]

theorem cv_gt_iff {a b : Value} :
    compare_values a b = some .gt ↔
      ∃ x y, key a = some x ∧ key b = some y ∧ kcmp x y = some .gt := by
  rw [compare_values_eq_keyComp]
  cases ha : key a <;> cases hb : key b <;> simp [keyComp]

theorem cv_self_not_lt (a : Value) : compare_values a a ≠ some .lt := by
  rw [compare_values_eq_keyComp]
  cases h : key a with
  | none => simp [keyComp]
  | some x => simp [keyComp, kcmp_self]

theorem cv_self_not_gt (a : Value) : compare_values a a ≠ some .gt := by
  rw [compare_values_eq_keyComp]
  cases h : key a with
  | none => simp [keyComp]
  | some x => simp [keyComp, kcmp_self]

theorem cv_trans_lt {a b c : Value}
    (h1 : compare_values a b = some .lt) (h2 : compare_values b c = some .lt) :
    compare_values a c = some .lt := by
  obtain ⟨x, y, hx, hy, hxy⟩ := cv_lt_iff.mp h1
  obtain ⟨y2, z, hy2, hz, hyz⟩ := cv_lt_iff.mp h2
  rw [hy, Option.some_inj] at hy2
  subst hy2
  exact cv_lt_iff.mpr ⟨x, z, hx, hz, kcmp_trans_lt hxy hyz⟩

theorem cv_lt_of_eq_lt {a b c : Value}
    (h1 : compare_values a b = some .eq) (h2 : compare_values b c = some .lt) :
    compare_values a c = some .lt := by
  obtain ⟨k, hx, hy⟩ := cv_eq_iff.mp h1
  obtain ⟨y2, z, hy2, hz, hyz⟩ := cv_lt_iff.mp h2
  rw [hy, Option.some_inj] at hy2
  subst hy2
  exact cv_lt_iff.mpr ⟨k, z, hx, hz, hyz⟩

theorem cv_lt_of_lt_eq {a b c : Value}
    (h1 : compare_values a b = some .lt) (h2 : compare_values b c = some .eq) :
    compare_values a c = some .lt := by
  obtain ⟨x, y, hx, hy, hxy⟩ := cv_lt_iff.mp h1
  obtain ⟨k, hy2, hz⟩ := cv_eq_iff.mp h2
  rw [hy, Option.some_inj] at hy2
  subst hy2
  exact cv_lt_iff.mpr ⟨x, y, hx, hz, hxy⟩

theorem cv_lt_iff_gt {a b : Value} :
    compare_values a b = some .lt ↔ compare_values b a = some .gt := by
  rw [cv_lt_iff, cv_gt_iff]
  constructor
  · rintro ⟨x, y, hx, hy, hxy⟩
    exact ⟨y, x, hy, hx, kcmp_lt_iff_gt.mp hxy⟩
  · rintro ⟨y, x, hy, hx, hyx⟩
    exact ⟨x, y, hx, hy, kcmp_lt_iff_gt.mpr hyx⟩

/-! ## Zone maps and columnar property storage
Mirrors crates/grafeo-core/src/graph/lpg/property.rs.  The `FxHashMap` columns
are modelled as association lists with unique keys; entity ids are naturals and
property keys are strings. -/

/-- Comparison operator for zone map predicate checks (`CompareOp` in property.rs). -/
inductive CompareOp where
  | Eq | Ne | Lt | Le | Gt | Ge

/-- Association-list lookup, mirroring `HashMap::get`. -/
def aget {κ β : Type _} [DecidableEq κ] (k : κ) : List (κ × β) → Option β
  | [] => none
  | (k2, v) :: rest => if k = k2 then some v else aget k rest

/-- Association-list upsert, mirroring `HashMap::insert` (replaces the value of
an existing key, otherwise adds the entry). -/
def aset {κ β : Type _} [DecidableEq κ] (k : κ) (v : β) : List (κ × β) → List (κ × β)
  | [] => [(k, v)]
  | (k2, v2) :: rest => if k = k2 then (k2, v) :: rest else (k2, v2) :: aset k v rest

/-- Association-list removal, mirroring `HashMap::remove`.  Map states reachable
through `aset` have unique keys, so filtering all occurrences of the key agrees
with removing the single entry. -/
def aerase {κ β : Type _} [DecidableEq κ] (k : κ) (l : List (κ × β)) : List (κ × β) :=
  l.filter (fun p => !(decide (p.1 = k)))

/-- Zone map entry: aggregate statistics of one column.  The field layout
follows the spec (`row_count`, `null_count`, `min`, `max`); the struct itself
lives in crates/grafeo-core/src/index/zone_map.rs, which is not included under
src/, but every field is also dictated by its uses in property.rs. -/
structure ZoneMapEntry where
  row_count : ℕ
  null_count : ℕ
  min : Option Value
  max : Option Value

def ZoneMapEntry.new : ZoneMapEntry := ⟨0, 0, none, none⟩

def isNullValue : Value → Bool
  | .Null => true
  | _ => false

/-- Modelled from the spec: `ZoneMapEntry::might_contain_equal` (zone_map.rs is
not under src/).  The spec says `might_match` is false only when provably no
value satisfies the predicate and that `Eq` uses `min ≤ v ≤ max`; the model
returns false exactly when the probe is provably below `min` or provably above
`max` in the partial value order, and true in every other case (in particular
when a comparison is incomparable, which keeps the answer conservative). -/
def ZoneMapEntry.might_contain_equal (zm : ZoneMapEntry) (v : Value) : Bool :=
  match zm.min, zm.max with
  | some mn, some mx =>
      !(decide (compare_values v mn = some .lt)) && !(decide (compare_values v mx = some .gt))
  | _, _ => true

/-- Modelled from the spec: `ZoneMapEntry::might_contain_less_than`.  For `Lt`
(`inclusive = false`) the spec prunes unless `min < v`; provably nothing is
below `v` exactly when `min ≥ v`, so the model answers false when
`compare_values min v` is `gt` (or also `eq` in the strict case) and true
otherwise. -/
def ZoneMapEntry.might_contain_less_than (zm : ZoneMapEntry) (v : Value) (inclusive : Bool) :
    Bool :=
  match zm.min with
  | some mn =>
      if inclusive then !(decide (compare_values mn v = some .gt))
      else !(decide (compare_values mn v = some .gt ∨ compare_values mn v = some .eq))
  | none => true

/-- Modelled from the spec: `ZoneMapEntry::might_contain_greater_than`,
symmetric to `might_contain_less_than` against `max`. -/
def ZoneMapEntry.might_contain_greater_than (zm : ZoneMapEntry) (v : Value) (inclusive : Bool) :
    Bool :=
  match zm.max with
  | some mx =>
      if inclusive then !(decide (compare_values mx v = some .lt))
      else !(decide (compare_values mx v = some .lt ∨ compare_values mx v = some .eq))
  | none => true

/-- Mirror of `PropertyColumn::update_zone_map_on_insert`; the loop body of
`rebuild_zone_map` in the source is the identical code, so it is shared here. -/
def updateZoneMapOnInsert (zm : ZoneMapEntry) (v : Value) : ZoneMapEntry :=
  if isNullValue v then
    { zm with row_count := zm.row_count + 1, null_count := zm.null_count + 1 }
  else
    { row_count := zm.row_count + 1
      null_count := zm.null_count
      min :=
        match zm.min with
        | none => some v
        | some current => if compare_values v current = some .lt then some v else some current
      max :=
        match zm.max with
        | none => some v
        | some current => if compare_values v current = some .gt then some v else some current }

/-- A single property column with zone map tracking (`PropertyColumn` in property.rs). -/
structure PropertyColumn where
  values : List (ℕ × Value)
  zone_map : ZoneMapEntry
  zone_map_dirty : Bool

def PropertyColumn.new : PropertyColumn := ⟨[], ZoneMapEntry.new, false⟩

/-- Mirror of `PropertyColumn::set`: updates the zone map incrementally, then
upserts the value. -/
def PropertyColumn.set (c : PropertyColumn) (id : ℕ) (v : Value) : PropertyColumn :=
  { values := aset id v c.values
    zone_map := updateZoneMapOnInsert c.zone_map v
    zone_map_dirty := c.zone_map_dirty }

def PropertyColumn.get (c : PropertyColumn) (id : ℕ) : Option Value :=
  aget id c.values

/-- Mirror of `PropertyColumn::remove`: returns the removed value and marks the
zone map dirty when a removal occurred. -/
def PropertyColumn.remove (c : PropertyColumn) (id : ℕ) : Option Value × PropertyColumn :=
  let removed := aget id c.values
  (removed,
    { values := aerase id c.values
      zone_map := c.zone_map
      zone_map_dirty := c.zone_map_dirty || removed.isSome })

/-- Mirror of `PropertyColumn::might_match`. -/
def PropertyColumn.might_match (c : PropertyColumn) (op : CompareOp) (v : Value) : Bool :=
  if c.zone_map_dirty then true
  else
    match op with
    | .Eq => c.zone_map.might_contain_equal v
    | .Ne =>
        match c.zone_map.min, c.zone_map.max with
        | some mn, some mx =>
            !(decide (compare_values mn v = some .eq) && decide (compare_values mx v = some .eq))
        | _, _ => true
    | .Lt => c.zone_map.might_contain_less_than v false
    | .Le => c.zone_map.might_contain_less_than v true
    | .Gt => c.zone_map.might_contain_greater_than v false
    | .Ge => c.zone_map.might_contain_greater_than v true

/-- The zone map recomputed from scratch over the stored values, as the loop of
`PropertyColumn::rebuild_zone_map` does. -/
def computeZoneMap (vals : List Value) : ZoneMapEntry :=
  vals.foldl updateZoneMapOnInsert ZoneMapEntry.new

/-- Mirror of `PropertyColumn::rebuild_zone_map`. -/
def PropertyColumn.rebuild_zone_map (c : PropertyColumn) : PropertyColumn :=
  { values := c.values
    zone_map := computeZoneMap (c.values.map Prod.snd)
    zone_map_dirty := false }

/-- Columnar property storage (`PropertyStorage` in property.rs): a map from
property key to column, with columns created lazily on first `set`. -/
def PropertyStorage : Type := List (String × PropertyColumn)

def PropertyStorage.new : PropertyStorage := ([] : List (String × PropertyColumn))

def PropertyStorage.columns (σ : PropertyStorage) : List (String × PropertyColumn) := σ

theorem columns_def (σ : PropertyStorage) : σ.columns = σ := rfl

/-- Mirror of `PropertyStorage::set` (`entry(key).or_insert_with(new).set(id, value)`). -/
def PropertyStorage.set (σ : PropertyStorage) (id : ℕ) (k : String) (v : Value) :
    PropertyStorage :=
  aset k (((aget k σ.columns).getD PropertyColumn.new).set id v) σ.columns

def PropertyStorage.get (σ : PropertyStorage) (id : ℕ) (k : String) : Option Value :=
  (aget k σ.columns).bind (fun c => c.get id)

/-- Mirror of `PropertyStorage::remove`: delegates to the column when it exists. -/
def PropertyStorage.remove (σ : PropertyStorage) (id : ℕ) (k : String) :
    Option Value × PropertyStorage :=
  match aget k σ.columns with
  | none => (none, σ)
  | some c =>
      let r := c.remove id
      (r.1, aset k r.2 σ.columns)

/-- Mirror of `PropertyStorage::remove_all`: removes the id from every column. -/
def PropertyStorage.remove_all (σ : PropertyStorage) (id : ℕ) : PropertyStorage :=
  σ.columns.map (fun p => (p.1, (p.2.remove id).2))

/-- Mirror of `PropertyStorage::might_match`: conservative `true` when the
column does not exist. -/
def PropertyStorage.might_match (σ : PropertyStorage) (k : String) (op : CompareOp) (v : Value) :
    Bool :=
  ((aget k σ.columns).map (fun c => c.might_match op v)).getD true

/-- Mirror of `PropertyStorage::rebuild_zone_maps`. -/
def PropertyStorage.rebuild_zone_maps (σ : PropertyStorage) : PropertyStorage :=
  σ.columns.map (fun p => (p.1, p.2.rebuild_zone_map))

/-- The public write API of `PropertyStorage`; reachable storage states are the
results of running a list of these operations from the empty storage. -/
inductive StorageOp where
  | set (id : ℕ) (k : String) (v : Value)
  | remove (id : ℕ) (k : String)
  | remove_all (id : ℕ)
  | rebuild

def StorageOp.apply (σ : PropertyStorage) : StorageOp → PropertyStorage
  | .set id k v => σ.set id k v
  | .remove id k => (σ.remove id k).2
  | .remove_all id => σ.remove_all id
  | .rebuild => σ.rebuild_zone_maps

def runStorage (ops : List StorageOp) : PropertyStorage :=
  ops.foldl StorageOp.apply PropertyStorage.new

/-- Truth of `stored value op probe` under the engine's comparison semantics:
a row satisfies the predicate only when `compare_values` relates the two values
(cross-kind rows compare to `none` and are dropped by three-valued logic). -/
def valueMatches (op : CompareOp) (stored probe : Value) : Bool :=
  match compare_values stored probe with
  | none => false
  | some o =>
      match op, o with
      | .Eq, .eq => true
      | .Ne, .lt => true
      | .Ne, .gt => true
      | .Lt, .lt => true
      | .Le, .lt => true
      | .Le, .eq => true
      | .Gt, .gt => true
      | .Ge, .gt => true
      | .Ge, .eq => true
      | _, _ => false

/-! ## Association-list facts -/

theorem aget_aset_self {κ β : Type _} [DecidableEq κ] (k : κ) (v : β) (l : List (κ × β)) :
    aget k (aset k v l) = some v := by
  induction l with
  | nil => simp [aget, aset]
  | cons p rest ih =>
      by_cases h : k = p.1
      · simp [aset, aget, h]
      · simp [aset, aget, h, ih]

theorem aget_aset_ne {κ β : Type _} [DecidableEq κ] {k k2 : κ} (v : β) (l : List (κ × β))
    (h : k ≠ k2) : aget k (aset k2 v l) = aget k l := by
  induction l with
  | nil => simp [aget, aset, h]
  | cons p rest ih =>
      by_cases h2 : k2 = p.1
      · subst h2
        simp [aset, aget, h]
      · by_cases h3 : k = p.1 <;> simp [aset, aget, h2, h3, ih]

theorem aget_aerase_self {κ β : Type _} [DecidableEq κ] (k : κ) (l : List (κ × β)) :
    aget k (aerase k l) = none := by
  induction l with
  | nil => rfl
  | cons p rest ih =>
      by_cases h : p.1 = k
      · simpa [aerase, List.filter, h] using ih
      · have h2 : ¬(k = p.1) := fun hh => h hh.symm
        simpa [aerase, List.filter, h, aget, h2] using ih

theorem mem_aerase {κ β : Type _} [DecidableEq κ] {k : κ} {l : List (κ × β)} {p : κ × β}
    (h : p ∈ aerase k l) : p ∈ l :=
  List.mem_of_mem_filter h

theorem mem_aset_snd {κ β : Type _} [DecidableEq κ] {k : κ} {v : β} {l : List (κ × β)}
    {p : κ × β} (h : p ∈ aset k v l) : p.2 = v ∨ p ∈ l := by
  induction l with
  | nil =>
      simp [aset] at h
      simp [h]
  | cons q rest ih =>
      by_cases h2 : k = q.1
      · simp [aset, h2] at h
        rcases h with h | h
        · simp [h]
        · exact Or.inr (List.mem_cons_of_mem _ h)
      · simp [aset, h2] at h
        rcases h with h | h
        · exact Or.inr (by simp [h])
        · rcases ih h with h3 | h3
          · exact Or.inl h3
          · exact Or.inr (List.mem_cons_of_mem _ h3)

theorem aget_mem {κ β : Type _} [DecidableEq κ] {k : κ} {l : List (κ × β)} {v : β}
    (h : aget k l = some v) : (k, v) ∈ l := by
  induction l with
  | nil => simp [aget] at h
  | cons p rest ih =>
      by_cases h2 : k = p.1
      · simp [aget, h2] at h
        subst h2
        simp [← h]
      · simp [aget, h2] at h
        exact List.mem_cons_of_mem _ (ih h)

theorem aset_absent {κ β : Type _} [DecidableEq κ] {k : κ} (v : β) {l : List (κ × β)}
    (h : aget k l = none) : aset k v l = l ++ [(k, v)] := by
  induction l with
  | nil => rfl
  | cons p rest ih =>
      by_cases h2 : k = p.1
      · simp [aget, h2] at h
      · simp [aget, h2] at h
        simp [aset, h2, ih h]

/-! ## Zone-map soundness invariant -/

/-- A value is bounded by a zone map entry: it is never strictly below the
recorded minimum nor strictly above the recorded maximum. -/
def ZMBounds (zm : ZoneMapEntry) (u : Value) : Prop :=
  (∀ mn, zm.min = some mn → compare_values u mn ≠ some .lt) ∧
  (∀ mx, zm.max = some mx → compare_values u mx ≠ some .gt)

/-- The zone-map invariant relating a list of stored values to the entry:
every value is bounded, and the bounds can only be absent while every stored
value is Null. -/
def GoodVals (ws : List Value) (zm : ZoneMapEntry) : Prop :=
  (∀ u ∈ ws, ZMBounds zm u) ∧
  (zm.min = none → ∀ u ∈ ws, isNullValue u = true) ∧
  (zm.max = none → ∀ u ∈ ws, isNullValue u = true)

theorem keyComp_none_left (k : Option VKey) : keyComp none k = none := by
  cases k <;> rfl

theorem cv_of_null_left {u b : Value} (h : isNullValue u = true) :
    compare_values u b = none := by
  cases u <;> simp [isNullValue] at h
  rw [compare_values_eq_keyComp]
  exact keyComp_none_left _

theorem cv_eq_symm {a b : Value} (h : compare_values a b = some .eq) :
    compare_values b a = some .eq := by
  obtain ⟨k, hx, hy⟩ := cv_eq_iff.mp h
  exact cv_eq_iff.mpr ⟨k, hy, hx⟩

/-- The new minimum after inserting `w`, as computed by
`update_zone_map_on_insert`. -/
def minUpdate (m : Option Value) (w : Value) : Option Value :=
  match m with
  | none => some w
  | some c => if compare_values w c = some .lt then some w else some c

/-- The new maximum after inserting `w`. -/
def maxUpdate (m : Option Value) (w : Value) : Option Value :=
  match m with
  | none => some w
  | some c => if compare_values w c = some .gt then some w else some c

theorem update_min_of_insert (zm : ZoneMapEntry) {w : Value} (h : isNullValue w = false) :
    (updateZoneMapOnInsert zm w).min = minUpdate zm.min w := by
  simp [updateZoneMapOnInsert, minUpdate, h]

theorem update_max_of_insert (zm : ZoneMapEntry) {w : Value} (h : isNullValue w = false) :
    (updateZoneMapOnInsert zm w).max = maxUpdate zm.max w := by
  simp [updateZoneMapOnInsert, maxUpdate, h]

theorem update_min_of_null (zm : ZoneMapEntry) {w : Value} (h : isNullValue w = true) :
    (updateZoneMapOnInsert zm w).min = zm.min := by
  simp [updateZoneMapOnInsert, h]

theorem update_max_of_null (zm : ZoneMapEntry) {w : Value} (h : isNullValue w = true) :
    (updateZoneMapOnInsert zm w).max = zm.max := by
  simp [updateZoneMapOnInsert, h]

/-- Inserting a value into the zone map preserves the invariant, with the new
value accounted for. -/
theorem goodVals_update {ws : List Value} {zm : ZoneMapEntry} (w : Value)
    (h : GoodVals ws zm) : GoodVals (w :: ws) (updateZoneMapOnInsert zm w) := by
  obtain ⟨hb, hminn, hmaxn⟩ := h
  by_cases hw : isNullValue w = true
  · refine ⟨?_, ?_, ?_⟩
    · intro u hu
      rcases List.mem_cons.mp hu with rfl | hu
      · exact ⟨fun mn _ => by simp [cv_of_null_left hw],
          fun mx _ => by simp [cv_of_null_left hw]⟩
      · have := hb u hu
        refine ⟨fun mn hmn => this.1 mn ?_, fun mx hmx => this.2 mx ?_⟩
        · rwa [update_min_of_null zm hw] at hmn
        · rwa [update_max_of_null zm hw] at hmx
    · intro hnone u hu
      rw [update_min_of_null zm hw] at hnone
      rcases List.mem_cons.mp hu with rfl | hu
      · exact hw
      · exact hminn hnone u hu
    · intro hnone u hu
      rw [update_max_of_null zm hw] at hnone
      rcases List.mem_cons.mp hu with rfl | hu
      · exact hw
      · exact hmaxn hnone u hu
  · have hw2 : isNullValue w = false := by simpa using hw
    refine ⟨?_, ?_, ?_⟩
    · intro u hu
      constructor
      · intro mn hmn
        rw [update_min_of_insert zm hw2] at hmn
        rcases List.mem_cons.mp hu with rfl | hu
        · -- bound for the freshly inserted value itself
          rcases hzm : zm.min with _ | c
          · rw [hzm] at hmn
            simp [minUpdate] at hmn
            subst hmn
            exact cv_self_not_lt u
          · rw [hzm] at hmn
            by_cases hlt : compare_values u c = some .lt
            · simp [minUpdate, hlt] at hmn
              subst hmn
              exact cv_self_not_lt u
            · simp [minUpdate, hlt] at hmn
              subst hmn
              exact hlt
        · -- bound for previously stored values
          rcases hzm : zm.min with _ | c
          · rw [hzm] at hmn
            simp [minUpdate] at hmn
            subst hmn
            have hnull := hminn hzm u hu
            simp [cv_of_null_left hnull]
          · rw [hzm] at hmn
            by_cases hlt : compare_values w c = some .lt
            · simp [minUpdate, hlt] at hmn
              subst hmn
              intro hult
              exact (hb u hu).1 c hzm (cv_trans_lt hult hlt)
            · simp [minUpdate, hlt] at hmn
              subst hmn
              exact (hb u hu).1 c hzm
      · intro mx hmx
        rw [update_max_of_insert zm hw2] at hmx
        rcases List.mem_cons.mp hu with rfl | hu
        · rcases hzm : zm.max with _ | c
          · rw [hzm] at hmx
            simp [maxUpdate] at hmx
            subst hmx
            exact cv_self_not_gt u
          · rw [hzm] at hmx
            by_cases hgt : compare_values u c = some .gt
            · simp [maxUpdate, hgt] at hmx
              subst hmx
              exact cv_self_not_gt u
            · simp [maxUpdate, hgt] at hmx
              subst hmx
              exact hgt
        · rcases hzm : zm.max with _ | c
          · rw [hzm] at hmx
            simp [maxUpdate] at hmx
            subst hmx
            have hnull := hmaxn hzm u hu
            simp [cv_of_null_left hnull]
          · rw [hzm] at hmx
            by_cases hgt : compare_values w c = some .gt
            · simp [maxUpdate, hgt] at hmx
              subst hmx
              intro hugt
              have h1 : compare_values w u = some .lt := cv_lt_iff_gt.mpr hugt
              have h2 : compare_values c w = some .lt := cv_lt_iff_gt.mpr hgt
              exact (hb u hu).2 c hzm (cv_lt_iff_gt.mp (cv_trans_lt h2 h1))
            · simp [maxUpdate, hgt] at hmx
              subst hmx
              exact (hb u hu).2 c hzm
    · intro hnone
      rw [update_min_of_insert zm hw2] at hnone
      rcases hzm : zm.min with _ | c <;> rw [hzm] at hnone
      · simp [minUpdate] at hnone
      · by_cases hlt : compare_values w c = some .lt <;> simp [minUpdate, hlt] at hnone
    · intro hnone
      rw [update_max_of_insert zm hw2] at hnone
      rcases hzm : zm.max with _ | c <;> rw [hzm] at hnone
      · simp [maxUpdate] at hnone
      · by_cases hgt : compare_values w c = some .gt <;> simp [maxUpdate, hgt] at hnone

theorem goodVals_foldl :
    ∀ (ws acc : List Value) (zm : ZoneMapEntry), GoodVals acc zm →
      GoodVals (ws ++ acc) (ws.foldl updateZoneMapOnInsert zm)
  | [], acc, zm, h => by simpa using h
  | w :: ws, acc, zm, h => by
      have step := @goodVals_update acc zm w h
      have ih := goodVals_foldl ws (w :: acc) (updateZoneMapOnInsert zm w) step
      have hmem : ∀ u : Value, u ∈ (w :: ws) ++ acc → u ∈ ws ++ w :: acc := by
        intro u hu
        simp at hu
        simp
        tauto
      exact ⟨fun u hu => ih.1 u (hmem u hu), fun hn u hu => ih.2.1 hn u (hmem u hu),
        fun hn u hu => ih.2.2 hn u (hmem u hu)⟩

theorem goodVals_empty : GoodVals [] ZoneMapEntry.new := by
  exact ⟨fun u hu => (by cases hu), fun _ u hu => (by cases hu), fun _ u hu => (by cases hu)⟩

theorem goodVals_compute (vals : List Value) : GoodVals vals (computeZoneMap vals) := by
  have h := goodVals_foldl vals [] ZoneMapEntry.new goodVals_empty
  simpa [computeZoneMap] using h

theorem goodVals_sub {ws ws2 : List Value} {zm : ZoneMapEntry}
    (hsub : ∀ u ∈ ws2, u ∈ ws) (h : GoodVals ws zm) : GoodVals ws2 zm := by
  exact ⟨fun u hu => h.1 u (hsub u hu), fun hn u hu => h.2.1 hn u (hsub u hu),
    fun hn u hu => h.2.2 hn u (hsub u hu)⟩

/-- Column invariant: while the zone map is not dirty, its entry is a sound
summary of the stored values. -/
def ColInv (c : PropertyColumn) : Prop :=
  c.zone_map_dirty = false → GoodVals (c.values.map Prod.snd) c.zone_map

theorem colInv_new : ColInv PropertyColumn.new := fun _ => goodVals_empty

theorem colInv_set {c : PropertyColumn} (id : ℕ) (v : Value) (h : ColInv c) :
    ColInv (c.set id v) := by
  intro hdirty
  have hgood := @goodVals_update (c.values.map Prod.snd) c.zone_map v (h hdirty)
  refine goodVals_sub ?_ hgood
  intro u hu
  obtain ⟨p, hp, rfl⟩ := List.mem_map.mp hu
  rcases mem_aset_snd hp with h2 | h2
  · simp [h2]
  · exact List.mem_cons_of_mem _ (List.mem_map_of_mem Prod.snd h2)

theorem colInv_remove {c : PropertyColumn} (id : ℕ) (h : ColInv c) :
    ColInv (c.remove id).2 := by
  intro hdirty
  simp [PropertyColumn.remove] at hdirty
  have hgood := h hdirty.1
  refine goodVals_sub ?_ hgood
  intro u hu
  obtain ⟨p, hp, rfl⟩ := List.mem_map.mp hu
  exact List.mem_map_of_mem Prod.snd (mem_aerase hp)

theorem colInv_rebuild (c : PropertyColumn) : ColInv c.rebuild_zone_map :=
  fun _ => goodVals_compute _

theorem vm_eq {a b : Value} :
    valueMatches .Eq a b = true ↔ compare_values a b = some .eq := by
  unfold valueMatches
  cases h : compare_values a b with
  | none => simp
  | some o => cases o <;> simp

theorem vm_ne {a b : Value} :
    valueMatches .Ne a b = true ↔
      (compare_values a b = some .lt ∨ compare_values a b = some .gt) := by
  unfold valueMatches
  cases h : compare_values a b with
  | none => simp
  | some o => cases o <;> simp

theorem vm_lt {a b : Value} :
    valueMatches .Lt a b = true ↔ compare_values a b = some .lt := by
  unfold valueMatches
  cases h : compare_values a b with
  | none => simp
  | some o => cases o <;> simp

theorem vm_le {a b : Value} :
    valueMatches .Le a b = true ↔
      (compare_values a b = some .lt ∨ compare_values a b = some .eq) := by
  unfold valueMatches
  cases h : compare_values a b with
  | none => simp
  | some o => cases o <;> simp

theorem vm_gt {a b : Value} :
    valueMatches .Gt a b = true ↔ compare_values a b = some .gt := by
  unfold valueMatches
  cases h : compare_values a b with
  | none => simp
  | some o => cases o <;> simp

theorem vm_ge {a b : Value} :
    valueMatches .Ge a b = true ↔
      (compare_values a b = some .gt ∨ compare_values a b = some .eq) := by
  unfold valueMatches
  cases h : compare_values a b with
  | none => simp
  | some o => cases o <;> simp

theorem mce_false {zm : ZoneMapEntry} {v : Value}
    (h : zm.might_contain_equal v = false) :
    ∃ mn mx, zm.min = some mn ∧ zm.max = some mx ∧
      (compare_values v mn = some .lt ∨ compare_values v mx = some .gt) := by
  unfold ZoneMapEntry.might_contain_equal at h
  rcases hmn : zm.min with _ | mn <;> rcases hmx : zm.max with _ | mx <;>
    rw [hmn, hmx] at h <;> simp at h
  by_cases hl : compare_values v mn = some Ordering.lt
  · exact ⟨mn, mx, rfl, rfl, Or.inl hl⟩
  · exact ⟨mn, mx, rfl, rfl, Or.inr (h hl)⟩

theorem mclt_false_strict {zm : ZoneMapEntry} {v : Value}
    (h : zm.might_contain_less_than v false = false) :
    ∃ mn, zm.min = some mn ∧
      (compare_values mn v = some .gt ∨ compare_values mn v = some .eq) := by
  unfold ZoneMapEntry.might_contain_less_than at h
  rcases hmn : zm.min with _ | mn <;> rw [hmn] at h <;> simp at h
  by_cases hg : compare_values mn v = some Ordering.gt
  · exact ⟨mn, rfl, Or.inl hg⟩
  · exact ⟨mn, rfl, Or.inr (h hg)⟩

theorem mclt_false_incl {zm : ZoneMapEntry} {v : Value}
    (h : zm.might_contain_less_than v true = false) :
    ∃ mn, zm.min = some mn ∧ compare_values mn v = some .gt := by
  unfold ZoneMapEntry.might_contain_less_than at h
  rcases hmn : zm.min with _ | mn <;> rw [hmn] at h <;> simp at h
  exact ⟨mn, rfl, h⟩

theorem mcgt_false_strict {zm : ZoneMapEntry} {v : Value}
    (h : zm.might_contain_greater_than v false = false) :
    ∃ mx, zm.max = some mx ∧
      (compare_values mx v = some .lt ∨ compare_values mx v = some .eq) := by
  unfold ZoneMapEntry.might_contain_greater_than at h
  rcases hmx : zm.max with _ | mx <;> rw [hmx] at h <;> simp at h
  by_cases hl : compare_values mx v = some Ordering.lt
  · exact ⟨mx, rfl, Or.inl hl⟩
  · exact ⟨mx, rfl, Or.inr (h hl)⟩

theorem mcgt_false_incl {zm : ZoneMapEntry} {v : Value}
    (h : zm.might_contain_greater_than v true = false) :
    ∃ mx, zm.max = some mx ∧ compare_values mx v = some .lt := by
  unfold ZoneMapEntry.might_contain_greater_than at h
  rcases hmx : zm.max with _ | mx <;> rw [hmx] at h <;> simp at h
  exact ⟨mx, rfl, h⟩

theorem ne_false {c : PropertyColumn} {v : Value} (hd : c.zone_map_dirty = false)
    (h : c.might_match .Ne v = false) :
    ∃ mn mx, c.zone_map.min = some mn ∧ c.zone_map.max = some mx ∧
      compare_values mn v = some .eq ∧ compare_values mx v = some .eq := by
  rw [PropertyColumn.might_match.eq_def, hd] at h
  simp only [Bool.false_eq_true, if_false] at h
  rcases hmn : c.zone_map.min with _ | mn <;> rcases hmx : c.zone_map.max with _ | mx <;>
    rw [hmn, hmx] at h <;> simp at h
  exact ⟨mn, mx, rfl, rfl, h.1, h.2⟩

/-- Column-level zone-map soundness: on a column satisfying the invariant, a
`false` answer from `might_match` means no stored value satisfies the predicate. -/
theorem colSound {c : PropertyColumn} (hc : ColInv c) {op : CompareOp} {v : Value}
    (h : c.might_match op v = false) :
    ∀ p ∈ c.values, valueMatches op p.2 v = false := by
  intro p hp
  have hdirty : c.zone_map_dirty = false := by
    rcases hd : c.zone_map_dirty
    · rfl
    · rw [PropertyColumn.might_match.eq_def, hd] at h
      simp at h
  have hgood := hc hdirty
  have hbp : ZMBounds c.zone_map p.2 := hgood.1 p.2 (List.mem_map_of_mem Prod.snd hp)
  by_contra hmatch
  have hm : valueMatches op p.2 v = true := by
    rcases hb : valueMatches op p.2 v
    · exact absurd hb hmatch
    · rfl
  have hne := @ne_false c v hdirty
  rw [PropertyColumn.might_match.eq_def, hdirty] at h
  simp only [Bool.false_eq_true, if_false] at h
  cases op with
  | Eq =>
      obtain ⟨mn, mx, hmn, hmx, hor⟩ := mce_false h
      have heq := vm_eq.mp hm
      rcases hor with hlt | hgt
      · exact hbp.1 mn hmn (cv_lt_of_eq_lt heq hlt)
      · have h1 : compare_values mx v = some .lt := cv_lt_iff_gt.mpr hgt
        have h2 : compare_values mx p.2 = some .lt := cv_lt_of_lt_eq h1 (cv_eq_symm heq)
        exact hbp.2 mx hmx (cv_lt_iff_gt.mp h2)
  | Ne =>
      obtain ⟨mn, mx, hmn, hmx, hA, hB⟩ := hne (by
        rw [PropertyColumn.might_match.eq_def, hdirty]
        simpa using h)
      rcases vm_ne.mp hm with hlt | hgt
      · exact hbp.1 mn hmn (cv_lt_of_lt_eq hlt (cv_eq_symm hA))
      · have h1 : compare_values v p.2 = some .lt := cv_lt_iff_gt.mpr hgt
        have h2 : compare_values mx p.2 = some .lt := cv_lt_of_eq_lt hB h1
        exact hbp.2 mx hmx (cv_lt_iff_gt.mp h2)
  | Lt =>
      obtain ⟨mn, hmn, hor⟩ := mclt_false_strict h
      have hlt := vm_lt.mp hm
      rcases hor with hgt | heq
      · exact hbp.1 mn hmn (cv_trans_lt hlt (cv_lt_iff_gt.mpr hgt))
      · exact hbp.1 mn hmn (cv_lt_of_lt_eq hlt (cv_eq_symm heq))
  | Le =>
      obtain ⟨mn, hmn, hgt⟩ := mclt_false_incl h
      have hvmn : compare_values v mn = some .lt := cv_lt_iff_gt.mpr hgt
      rcases vm_le.mp hm with hlt | heq
      · exact hbp.1 mn hmn (cv_trans_lt hlt hvmn)
      · exact hbp.1 mn hmn (cv_lt_of_eq_lt heq hvmn)
  | Gt =>
      obtain ⟨mx, hmx, hor⟩ := mcgt_false_strict h
      have hvp : compare_values v p.2 = some .lt := cv_lt_iff_gt.mpr (vm_gt.mp hm)
      rcases hor with hlt | heq
      · exact hbp.2 mx hmx (cv_lt_iff_gt.mp (cv_trans_lt hlt hvp))
      · exact hbp.2 mx hmx (cv_lt_iff_gt.mp (cv_lt_of_eq_lt heq hvp))
  | Ge =>
      obtain ⟨mx, hmx, hlt⟩ := mcgt_false_incl h
      rcases vm_ge.mp hm with hgt | heq
      · have hvp : compare_values v p.2 = some .lt := cv_lt_iff_gt.mpr hgt
        exact hbp.2 mx hmx (cv_lt_iff_gt.mp (cv_trans_lt hlt hvp))
      · have h2 : compare_values mx p.2 = some .lt := cv_lt_of_lt_eq hlt (cv_eq_symm heq)
        exact hbp.2 mx hmx (cv_lt_iff_gt.mp h2)

/-- Storage invariant: every column of the storage satisfies `ColInv`. -/
def StorageInv (σ : PropertyStorage) : Prop := ∀ p ∈ σ.columns, ColInv p.2

theorem storageInv_apply {σ : PropertyStorage} (op : StorageOp) (h : StorageInv σ) :
    StorageInv (StorageOp.apply σ op) := by
  cases op with
  | set id k v =>
      intro p hp
      rw [StorageOp.apply, PropertyStorage.set] at hp
      rcases mem_aset_snd hp with h2 | h2
      · rw [h2]
        apply colInv_set
        rcases hk : aget k σ.columns with _ | c
        · exact colInv_new
        · exact h (k, c) (aget_mem hk)
      · exact h p h2
  | remove id k =>
      intro p hp
      rw [StorageOp.apply, PropertyStorage.remove] at hp
      rcases hk : aget k σ.columns with _ | c <;> rw [hk] at hp
      · exact h p hp
      · rcases mem_aset_snd hp with h2 | h2
        · rw [h2]
          exact colInv_remove id (h (k, c) (aget_mem hk))
        · exact h p h2
  | remove_all id =>
      intro p hp
      rw [StorageOp.apply, PropertyStorage.remove_all] at hp
      obtain ⟨q, hq, rfl⟩ := List.mem_map.mp hp
      exact colInv_remove id (h q hq)
  | rebuild =>
      intro p hp
      rw [StorageOp.apply, PropertyStorage.rebuild_zone_maps] at hp
      obtain ⟨q, hq, rfl⟩ := List.mem_map.mp hp
      exact colInv_rebuild q.2

theorem storageInv_run (ops : List StorageOp) : StorageInv (runStorage ops) := by
  rw [runStorage]
  have h : ∀ (l : List StorageOp) (σ : PropertyStorage), StorageInv σ →
      StorageInv (l.foldl StorageOp.apply σ) := by
    intro l
    induction l with
    | nil => exact fun σ h => h
    | cons op rest ih => exact fun σ h => ih _ (storageInv_apply op h)
  exact h ops PropertyStorage.new (fun p hp => by cases hp)

/-! ## Claims about the property storage -/

/-- C1: if `PropertyStorage::might_match(key, op, v)` answers `false` on any
reachable storage state, then no value stored in that key's column satisfies
`stored op v`; and `might_match` answers `true` whenever the column does not
exist or its zone map is dirty. -/
theorem c1_might_match_sound (ops : List StorageOp) (k : String) (op : CompareOp) (v : Value) :
    ((runStorage ops).might_match k op v = false →
      ∀ id u, (runStorage ops).get id k = some u → valueMatches op u v = false) ∧
    (aget k (runStorage ops).columns = none →
      (runStorage ops).might_match k op v = true) ∧
    (∀ c, aget k (runStorage ops).columns = some c → c.zone_map_dirty = true →
      (runStorage ops).might_match k op v = true) := by
  refine ⟨?_, ?_, ?_⟩
  · intro h id u hget
    rw [PropertyStorage.get] at hget
    rcases hk : aget k (runStorage ops).columns with _ | c
    · rw [hk] at hget
      simp at hget
    · rw [hk] at hget
      simp only [Option.some_bind] at hget
      have hinv : ColInv c := storageInv_run ops (k, c) (aget_mem hk)
      have hmm : c.might_match op v = false := by
        rw [PropertyStorage.might_match.eq_def, hk] at h
        exact h
      have hmem : (id, u) ∈ c.values := aget_mem hget
      exact colSound hinv hmm (id, u) hmem
  · intro h
    rw [PropertyStorage.might_match.eq_def, h]
    rfl
  · intro c hk hd
    rw [PropertyStorage.might_match.eq_def, hk]
    simp [PropertyColumn.might_match.eq_def, hd]

/-- Witness for C1: on the storage holding age = 30, probing `age = 99` is
pruned and indeed 30 does not match; after a remove the column is dirty and
`might_match` answers true. -/
theorem c1_might_match_sound_witness :
    valueMatches .Eq (Value.Int64 30) (Value.Int64 99) = false ∧
    (runStorage [.set 1 "age" (.Int64 30), .remove 1 "age"]).might_match "age" .Eq
      (.Int64 0) = true := by
  constructor
  · exact (c1_might_match_sound [.set 1 "age" (.Int64 30)] "age" .Eq (.Int64 99)).1
      (by rfl) 1 (.Int64 30) (by rfl)
  · exact (c1_might_match_sound [.set 1 "age" (.Int64 30), .remove 1 "age"] "age" .Eq
      (.Int64 0)).2.2 ⟨[], ⟨1, 0, some (.Int64 30), some (.Int64 30)⟩, true⟩ (by rfl) (by rfl)

/-- C4: the set-then-get round trip, from any storage state. -/
theorem c4_set_get (σ : PropertyStorage) (id : ℕ) (k : String) (v : Value) :
    (σ.set id k v).get id k = some v := by
  rw [PropertyStorage.set, PropertyStorage.get, columns_def, aget_aset_self]
  simp only [Option.some_bind]
  rw [PropertyColumn.get, PropertyColumn.set]
  exact aget_aset_self id v _

/-- C5: `rebuild_zone_maps` recomputes every column's zone map from its current
values and clears the dirty flag, and running it twice equals running it once. -/
theorem c5_rebuild_idem (σ : PropertyStorage) :
    (σ.rebuild_zone_maps.rebuild_zone_maps = σ.rebuild_zone_maps) ∧
    (∀ p ∈ σ.rebuild_zone_maps.columns, ∃ q ∈ σ.columns, p.1 = q.1 ∧
      p.2.values = q.2.values ∧
      p.2.zone_map = computeZoneMap (q.2.values.map Prod.snd) ∧
      p.2.zone_map_dirty = false) := by
  constructor
  · rw [PropertyStorage.rebuild_zone_maps, PropertyStorage.rebuild_zone_maps]
    rw [PropertyStorage.columns, PropertyStorage.columns, List.map_map]
    rfl
  · intro p hp
    rw [PropertyStorage.rebuild_zone_maps] at hp
    obtain ⟨q, hq, rfl⟩ := List.mem_map.mp hp
    exact ⟨q, hq, rfl, rfl, rfl, rfl⟩

/-- C6: `remove` returns the previously stored value exactly when one was
stored, afterwards `get` returns none, and the column's dirty flag after the
call is its old flag or-ed with whether a removal occurred (so from a clean
column the call sets the flag iff a removal occurred). -/
theorem c6_remove (σ : PropertyStorage) (id : ℕ) (k : String) :
    ((σ.remove id k).1 = σ.get id k) ∧
    ((σ.remove id k).2.get id k = none) ∧
    (∀ c c2, aget k σ.columns = some c → aget k (σ.remove id k).2.columns = some c2 →
      c2.zone_map_dirty = (c.zone_map_dirty || (σ.get id k).isSome) ∧
      (c.zone_map_dirty = false →
        (c2.zone_map_dirty = true ↔ (σ.get id k).isSome = true))) := by
  refine ⟨?_, ?_, ?_⟩
  · rw [PropertyStorage.remove.eq_def, PropertyStorage.get]
    rcases hk : aget k σ.columns with _ | c
    · simp
    · simp [PropertyColumn.remove, PropertyColumn.get]
  · rw [PropertyStorage.remove.eq_def]
    rcases hk : aget k σ.columns with _ | c
    · show σ.get id k = none
      rw [PropertyStorage.get, hk]
      rfl
    · show PropertyStorage.get (aset k (c.remove id).2 σ.columns) id k = none
      rw [PropertyStorage.get, columns_def, aget_aset_self]
      simp only [Option.some_bind]
      exact aget_aerase_self id c.values
  · intro c c2 hc hc2
    simp only [PropertyStorage.remove.eq_def, hc] at hc2
    rw [columns_def, aget_aset_self, Option.some_inj] at hc2
    subst hc2
    rw [PropertyStorage.get, hc]
    simp only [Option.some_bind]
    constructor
    · rfl
    · intro hclean
      simp [PropertyColumn.remove, PropertyColumn.get, hclean]

/-- Witness for C6: removing the single stored value returns it, clears it and
dirties the previously clean column. -/
theorem c6_remove_witness :
    ((runStorage [.set 1 "name" (.Int64 7)]).remove 1 "name").1 = some (.Int64 7) ∧
    ((runStorage [.set 1 "name" (.Int64 7)]).remove 1 "name").2.get 1 "name" = none ∧
    (⟨[], ⟨1, 0, some (.Int64 7), some (.Int64 7)⟩, true⟩ : PropertyColumn).zone_map_dirty
      = true := by
  have h := c6_remove (runStorage [.set 1 "name" (.Int64 7)]) 1 "name"
  refine ⟨?_, h.2.1, ?_⟩
  · rw [h.1]
    rfl
  · exact ((h.2.2 ⟨[(1, .Int64 7)], ⟨1, 0, some (.Int64 7), some (.Int64 7)⟩, false⟩
      ⟨[], ⟨1, 0, some (.Int64 7), some (.Int64 7)⟩, true⟩ (by rfl) (by rfl)).2 rfl).mpr (by rfl)

/-! ## Zone-map accuracy after `set` (claim C2) -/

def nonNullVals (c : PropertyColumn) : List Value :=
  (c.values.map Prod.snd).filter (fun u => !(isNullValue u))

/-- `m` is an accurate minimum of `nn`: absent exactly when `nn` is empty,
otherwise a member of `nn` with no member strictly below it. -/
def MinOk (m : Option Value) (nn : List Value) : Prop :=
  match m with
  | none => nn = []
  | some m0 => m0 ∈ nn ∧ ∀ u ∈ nn, compare_values u m0 ≠ some .lt

/-- `m` is an accurate maximum of `nn`. -/
def MaxOk (m : Option Value) (nn : List Value) : Prop :=
  match m with
  | none => nn = []
  | some m0 => m0 ∈ nn ∧ ∀ u ∈ nn, compare_values u m0 ≠ some .gt

/-- A column whose zone-map entry accurately reflects the live values. -/
def Accurate (c : PropertyColumn) : Prop :=
  c.zone_map.row_count = c.values.length ∧
  c.zone_map.null_count = ((c.values.map Prod.snd).filter (fun u => isNullValue u)).length ∧
  MinOk c.zone_map.min (nonNullVals c) ∧
  MaxOk c.zone_map.max (nonNullVals c)

theorem update_row_count (zm : ZoneMapEntry) (w : Value) :
    (updateZoneMapOnInsert zm w).row_count = zm.row_count + 1 := by
  by_cases h : isNullValue w <;> simp [updateZoneMapOnInsert, h]

theorem update_null_count (zm : ZoneMapEntry) (w : Value) :
    (updateZoneMapOnInsert zm w).null_count =
      zm.null_count + (if isNullValue w then 1 else 0) := by
  by_cases h : isNullValue w <;> simp [updateZoneMapOnInsert, h]

theorem minOk_insert {m : Option Value} {nn : List Value} (v : Value) (h : MinOk m nn) :
    MinOk (minUpdate m v) (nn ++ [v]) := by
  rcases m with _ | m0
  · have h2 : nn = [] := h
    subst h2
    show MinOk (some v) ([] ++ [v])
    refine ⟨by simp, ?_⟩
    intro u hu
    simp at hu
    subst hu
    exact cv_self_not_lt u
  · have h2 : m0 ∈ nn ∧ ∀ u ∈ nn, compare_values u m0 ≠ some .lt := h
    show MinOk (if compare_values v m0 = some .lt then some v else some m0) (nn ++ [v])
    by_cases hlt : compare_values v m0 = some .lt
    · rw [if_pos hlt]
      refine ⟨by simp, ?_⟩
      intro u hu
      rcases List.mem_append.mp hu with hu | hu
      · intro hul
        exact h2.2 u hu (cv_trans_lt hul hlt)
      · simp at hu
        subst hu
        exact cv_self_not_lt u
    · rw [if_neg hlt]
      refine ⟨List.mem_append_left _ h2.1, ?_⟩
      intro u hu
      rcases List.mem_append.mp hu with hu | hu
      · exact h2.2 u hu
      · simp at hu
        subst hu
        exact hlt

theorem maxOk_insert {m : Option Value} {nn : List Value} (v : Value) (h : MaxOk m nn) :
    MaxOk (maxUpdate m v) (nn ++ [v]) := by
  rcases m with _ | m0
  · have h2 : nn = [] := h
    subst h2
    show MaxOk (some v) ([] ++ [v])
    refine ⟨by simp, ?_⟩
    intro u hu
    simp at hu
    subst hu
    exact cv_self_not_gt u
  · have h2 : m0 ∈ nn ∧ ∀ u ∈ nn, compare_values u m0 ≠ some .gt := h
    show MaxOk (if compare_values v m0 = some .gt then some v else some m0) (nn ++ [v])
    by_cases hgt : compare_values v m0 = some .gt
    · rw [if_pos hgt]
      refine ⟨by simp, ?_⟩
      intro u hu
      rcases List.mem_append.mp hu with hu | hu
      · intro hug
        have h1 : compare_values v u = some .lt := cv_lt_iff_gt.mpr hug
        have h3 : compare_values m0 v = some .lt := cv_lt_iff_gt.mpr hgt
        exact h2.2 u hu (cv_lt_iff_gt.mp (cv_trans_lt h3 h1))
      · simp at hu
        subst hu
        exact cv_self_not_gt u
    · rw [if_neg hgt]
      refine ⟨List.mem_append_left _ h2.1, ?_⟩
      intro u hu
      rcases List.mem_append.mp hu with hu | hu
      · exact h2.2 u hu
      · simp at hu
        subst hu
        exact hgt

/-- C2 (amended): when the written id is not already stored — a fresh insert
rather than an upsert — `PropertyColumn::set` preserves zone-map accuracy:
counters and min/max reflect the live values afterwards, and `row_count`
grows by exactly one.  (The unrestricted claim fails on upserts, see the
counterexample.) -/
theorem c2_set_preserves_accuracy {c : PropertyColumn} (id : ℕ) (v : Value)
    (hacc : Accurate c) (hfresh : aget id c.values = none) :
    Accurate (c.set id v) ∧
    (c.set id v).zone_map.row_count = c.zone_map.row_count + 1 ∧
    (c.set id v).zone_map.null_count =
      c.zone_map.null_count + (if isNullValue v then 1 else 0) := by
  have hv : (c.set id v).values = c.values ++ [(id, v)] := aset_absent v hfresh
  have hsnd : (c.set id v).values.map Prod.snd = c.values.map Prod.snd ++ [v] := by
    rw [hv]
    simp
  have hzm : (c.set id v).zone_map = updateZoneMapOnInsert c.zone_map v := rfl
  have hnn : nonNullVals (c.set id v) =
      nonNullVals c ++ (if isNullValue v then [] else [v]) := by
    by_cases hnv : isNullValue v <;>
      simp [nonNullVals, hsnd, List.filter_append, hnv]
  refine ⟨⟨?_, ?_, ?_, ?_⟩, ?_, ?_⟩
  · rw [hzm, update_row_count, hacc.1, hv]
    simp
  · rw [hzm, update_null_count, hacc.2.1, hsnd, List.filter_append]
    by_cases hnv : isNullValue v <;> simp [hnv]
  · rw [hzm, hnn]
    by_cases hnv : isNullValue v
    · rw [update_min_of_null _ hnv, if_pos hnv, List.append_nil]
      exact hacc.2.2.1
    · have hnv2 : isNullValue v = false := by simpa using hnv
      rw [update_min_of_insert _ hnv2, if_neg hnv]
      exact minOk_insert v hacc.2.2.1
  · rw [hzm, hnn]
    by_cases hnv : isNullValue v
    · rw [update_max_of_null _ hnv, if_pos hnv, List.append_nil]
      exact hacc.2.2.2
    · have hnv2 : isNullValue v = false := by simpa using hnv
      rw [update_max_of_insert _ hnv2, if_neg hnv]
      exact maxOk_insert v hacc.2.2.2
  · rw [hzm, update_row_count]
  · rw [hzm, update_null_count]

/-- C2 counterexample: an upsert that overwrites the value already stored for
id 1 leaves `row_count = 2` although only one live value remains, so after
this `set` the zone-map entry does not reflect the live values as the claim
states. -/
theorem c2_upsert_overcounts :
    ((PropertyColumn.new.set 1 (.Int64 5)).set 1 (.Int64 5)).zone_map.row_count = 2 ∧
    ((PropertyColumn.new.set 1 (.Int64 5)).set 1 (.Int64 5)).values.length = 1 := by
  exact ⟨rfl, rfl⟩

/-- Witness for the amended C2 at a concrete fresh insert. -/
theorem c2_set_preserves_accuracy_witness :
    Accurate (PropertyColumn.new.set 1 (.Int64 5)) ∧
    (PropertyColumn.new.set 1 (.Int64 5)).zone_map.row_count =
      PropertyColumn.new.zone_map.row_count + 1 := by
  have hacc : Accurate PropertyColumn.new := by
    refine ⟨rfl, rfl, ?_, ?_⟩ <;> rfl
  have h := c2_set_preserves_accuracy 1 (.Int64 5) hacc rfl
  exact ⟨h.1, h.2.1⟩

/-! ## Claim C9: the shape of `compare_values` -/

/-- C9 (amended): `compare_values` is the comparison of projections to
comparison keys — same-kind Int64, Float64, String and Bool pairs compare
natively, Int64 and Float64 mix by widening the integer to the numeric key,
and every other pair (including same-kind Null, Bytes, List and Map pairs,
which the original claim said compare natively) is incomparable. -/
theorem c9_compare_values_shape :
    (∀ a b, compare_values a b = keyComp (key a) (key b)) ∧
    (∀ x y, compare_values (.Int64 x) (.Float64 y) = fcmp (some ((x : ℚ))) y) ∧
    (∀ s t, compare_values (.Bytes s) (.Bytes t) = none) ∧
    (∀ l1 l2, compare_values (.List l1) (.List l2) = none) ∧
    (∀ m1 m2, compare_values (.Map m1) (.Map m2) = none) ∧
    (compare_values .Null .Null = none) := by
  exact ⟨compare_values_eq_keyComp, fun x y => rfl, fun s t => rfl, fun l1 l2 => rfl,
    fun m1 m2 => rfl, rfl⟩

/-- C9 counterexample: two equal same-kind Bytes values are incomparable under
`compare_values`, although the claim says same-kind values compare natively
(the native byte-wise comparison of equal byte strings is `eq`, as the String
case shows). -/
theorem c9_bytes_incomparable :
    compare_values (.Bytes []) (.Bytes []) = none ∧
    compare_values (.String "") (.String "") = some .eq := by
  refine ⟨rfl, ?_⟩
  show some (cmp3 ("" : String) "") = some .eq
  rw [cmp3_eq_eq.mpr rfl]

/-! ## The Gremlin translator
Mirrors crates/grafeo-engine/src/query/gremlin_translator.rs.  The Gremlin AST
(crates/grafeo-adapters, gremlin feature) and the logical plan IR
(crates/grafeo-engine/src/query/plan.rs) are not included under src/; both are
modelled from the spec sections 3 and 6 together with the exact fields and
constructors the translator reads and builds. -/

/-- Decimal digit characters of `n`, most significant first, with enough fuel
for structural recursion. -/
def digitsAux : ℕ → ℕ → List Char
  | 0, _ => []
  | fuel + 1, n => if n = 0 then [] else digitsAux fuel (n / 10) ++ [Char.ofNat (48 + n % 10)]

/-- Decimal rendering of a natural, as Rust `format!` prints a `u32`. -/
def natStr (n : ℕ) : String := if n = 0 then "0" else String.mk (digitsAux (n + 1) n)

/-- The anonymous variable name `format!("_v{n}")`. -/
def mkAnon (n : ℕ) : String := "_v" ++ natStr n

namespace ast

/-- Modelled from the spec: Gremlin comparison and string predicates
(`ast::Predicate` of the gremlin parser crate). -/
inductive Predicate where
  | Eq (v : Value)
  | Neq (v : Value)
  | Lt (v : Value)
  | Lte (v : Value)
  | Gt (v : Value)
  | Gte (v : Value)
  | Within (vs : List Value)
  | Without (vs : List Value)
  | Between (lo hi : Value)
  | Containing (s : String)
  | StartingWith (s : String)
  | EndingWith (s : String)
  | And (ps : List Predicate)
  | Or (ps : List Predicate)
  | Not (p : Predicate)
  | Unsupported

/-- Modelled from the spec: the shapes of the `has` step. -/
inductive HasStep where
  | Key (k : String)
  | KeyValue (k : String) (v : Value)
  | KeyPredicate (k : String) (p : Predicate)
  | LabelKeyValue (label k : String) (v : Value)

/-- Modelled from the spec: a `property(k, v)` step payload. -/
structure PropStep where
  key : String
  value : Value

inductive SortOrder where
  | Asc | Desc | Shuffle

inductive TokenType where
  | Id | Label | OtherTok

inductive ByModifier where
  | Identity
  | Key (k : String)
  | Token (t : TokenType)
  | OtherBy

structure OrderModifier where
  byMod : ByModifier
  order : SortOrder

mutual
/-- Modelled from the spec: the Gremlin traversal steps the translator
matches, plus a constructor for the steps it leaves to the wildcard arm. -/
inductive Step where
  | Out (labels : List String)
  | In (labels : List String)
  | Both (labels : List String)
  | OutE (labels : List String)
  | InE (labels : List String)
  | BothE (labels : List String)
  | Has (h : HasStep)
  | HasLabel (labels : List String)
  | HasId (ids : List Value)
  | HasNot (k : String)
  | Dedup (keys : List String)
  | Limit (n : ℕ)
  | Skip (n : ℕ)
  | Range (start stop : ℕ)
  | Values (keys : List String)
  | Id
  | Label
  | Count
  | Sum
  | Mean
  | Min
  | Max
  | Fold
  | Order (modifiers : List OrderModifier)
  | As (label : String)
  | Property (p : PropStep)
  | Drop
  | AddV (label : Option String)
  | AddE (t : String)
  | From (ft : FromTo)
  | To (ft : FromTo)
  | Unsupported

/-- Modelled from the spec: the argument of `from()`/`to()`: a label reference
or an inner traversal. -/
inductive FromTo where
  | Label (l : String)
  | Traversal (steps : List Step)
end

/-- Modelled from the spec: the four traversal sources. -/
inductive TraversalSource where
  | V (ids : Option (List Value))
  | E (ids : Option (List Value))
  | AddV (label : Option String)
  | AddE (t : String)

/-- A parsed Gremlin statement: source plus steps. -/
structure Statement where
  source : TraversalSource
  steps : List Step

end ast

/-! ### The logical plan IR (modelled from the spec) -/

inductive ExpandDirection where
  | Outgoing | Incoming | Both

inductive BinaryOp where
  | Eq | Ne | Lt | Le | Gt | Ge | And | Or | In | Contains | StartsWith | EndsWith
  | Add | Sub | Mul | Div

inductive UnaryOp where
  | Not | IsNull | IsNotNull | Neg

inductive AggregateFunction where
  | Count | Sum | Avg | Min | Max | Collect

inductive SortOrder where
  | Ascending | Descending

/-- Modelled from the spec: `LogicalExpression`. -/
inductive LogicalExpression where
  | Literal (v : Value)
  | Variable (name : String)
  | Property (var : String) (property : String)
  | Id (var : String)
  | Labels (var : String)
  | List (elems : List LogicalExpression)
  | Binary (left : LogicalExpression) (op : BinaryOp) (right : LogicalExpression)
  | Unary (op : UnaryOp) (operand : LogicalExpression)

structure ReturnItem where
  expression : LogicalExpression
  aliasName : Option String

structure SortKey where
  expression : LogicalExpression
  order : SortOrder

structure AggregateExpr where
  function : AggregateFunction
  expression : Option LogicalExpression
  distinct : Bool
  aliasName : Option String

/-- Modelled from the spec: `LogicalOperator`, with each operator's struct
fields inlined into its constructor (only the operators the Gremlin translator
emits are needed). -/
inductive LogicalOperator where
  | NodeScan (var : String) (label : Option String) (input : Option LogicalOperator)
  | Expand (from_variable to_variable : String) (edge_variable : Option String)
      (direction : ExpandDirection) (edge_type : Option String)
      (min_hops : ℕ) (max_hops : Option ℕ) (input : LogicalOperator)
  | Filter (predicate : LogicalExpression) (input : LogicalOperator)
  | Return (items : List ReturnItem) (distinct : Bool) (input : LogicalOperator)
  | Aggregate (group_by : List LogicalExpression) (aggregates : List AggregateExpr)
      (input : LogicalOperator)
  | Sort (keys : List SortKey) (input : LogicalOperator)
  | Skip (count : ℕ) (input : LogicalOperator)
  | Limit (count : ℕ) (input : LogicalOperator)
  | Distinct (input : LogicalOperator)
  | CreateNode (var : String) (labels : List String)
      (properties : List (String × LogicalExpression)) (input : Option LogicalOperator)
  | CreateEdge (var : Option String) (from_variable to_variable : String)
      (edge_type : String) (properties : List (String × LogicalExpression))
      (input : LogicalOperator)
  | SetProperty (var : String) (properties : List (String × LogicalExpression))
      (replace : Bool) (input : LogicalOperator)
  | DeleteNode (var : String) (input : LogicalOperator)

structure LogicalPlan where
  root : LogicalOperator

/-! ### Translator state and results -/

/-- The translator's mutable state: the `var_counter: AtomicU32` of
`GremlinTranslator`, together with a ghost log of every name `next_var`
produced (the log is write-only and does not influence any result). -/
structure TState where
  counter : ℕ
  gens : List String

/-- Mirror of `GremlinTranslator::next_var`: `fetch_add(1)` then format. -/
def nv (st : TState) : String × TState :=
  (mkAnon st.counter, ⟨st.counter + 1, st.gens ++ [mkAnon st.counter]⟩)

/-- Mirror of `GremlinTranslator::get_current_var`: formats the counter's
current value without incrementing it. -/
def get_current_var (st : TState) : String := mkAnon st.counter

/-- Result of a translation step: success, a translator error
(`Error::Internal`), or a Rust-level panic such as unsigned-integer underflow
in a debug build. -/
inductive TRes (α : Type _) where
  | ok (a : α)
  | err (msg : String)
  | panic

def TRes.bind {α β : Type _} : TRes α → (α → TRes β) → TRes β
  | .ok a, f => f a
  | .err m, _ => .err m
  | .panic, _ => .panic

/-- Rust `a - b` on an unsigned integer: panics on underflow (in release mode
it would wrap instead; either way the claimed value `a - b` does not exist). -/
def u64Sub (a b : ℕ) : TRes ℕ :=
  if b ≤ a then .ok (a - b) else .panic

/-- Mirror of `GremlinTranslator::build_id_filter`. -/
def build_id_filter (var : String) (ids : List Value) : LogicalExpression :=
  match ids with
  | [v0] => .Binary (.Id var) .Eq (.Literal v0)
  | _ => .Binary (.Id var) .In (.List (ids.map (fun id => .Literal id)))

/-- Mirror of `GremlinTranslator::extract_from_to_var`. -/
def extract_from_to_var : ast.FromTo → TRes String
  | .Label l => .ok l
  | .Traversal _ =>
      .err "Traversal-based from()/to() not yet supported. Use label references"

mutual
/-- Mirror of `GremlinTranslator::translate_predicate`.  The `And`/`Or` arms
index `preds[0]`, which panics on an empty predicate list. -/
def translate_predicate : ast.Predicate → LogicalExpression → TRes LogicalExpression
  | .Eq v, expr => .ok (.Binary expr .Eq (.Literal v))
  | .Neq v, expr => .ok (.Binary expr .Ne (.Literal v))
  | .Lt v, expr => .ok (.Binary expr .Lt (.Literal v))
  | .Lte v, expr => .ok (.Binary expr .Le (.Literal v))
  | .Gt v, expr => .ok (.Binary expr .Gt (.Literal v))
  | .Gte v, expr => .ok (.Binary expr .Ge (.Literal v))
  | .Within vs, expr =>
      .ok (.Binary expr .In (.List (vs.map (fun v => .Literal v))))
  | .Without vs, expr =>
      .ok (.Unary .Not (.Binary expr .In (.List (vs.map (fun v => .Literal v)))))
  | .Between lo hi, expr =>
      .ok (.Binary (.Binary expr .Ge (.Literal lo)) .And (.Binary expr .Lt (.Literal hi)))
  | .Containing s, expr => .ok (.Binary expr .Contains (.Literal (.String s)))
  | .StartingWith s, expr => .ok (.Binary expr .StartsWith (.Literal (.String s)))
  | .EndingWith s, expr => .ok (.Binary expr .EndsWith (.Literal (.String s)))
  | .And ps, expr =>
      match ps with
      | [] => .panic
      | p :: rest =>
          (translate_predicate p expr).bind fun first =>
            translate_predicate_fold rest expr .And first
  | .Or ps, expr =>
      match ps with
      | [] => .panic
      | p :: rest =>
          (translate_predicate p expr).bind fun first =>
            translate_predicate_fold rest expr .Or first
  | .Not p, expr =>
      (translate_predicate p expr).bind fun inner => .ok (.Unary .Not inner)
  | .Unsupported, _ => .err "Unsupported predicate"

/-- The loop over `preds[1..]` in the `And`/`Or` arms. -/
def translate_predicate_fold :
    List ast.Predicate → LogicalExpression → BinaryOp → LogicalExpression →
      TRes LogicalExpression
  | [], _, _, acc => .ok acc
  | p :: rest, expr, op, acc =>
      (translate_predicate p expr).bind fun right =>
        translate_predicate_fold rest expr op (.Binary acc op right)
end

/-- Mirror of `GremlinTranslator::translate_has_step`. -/
def translate_has_step (has : ast.HasStep) (var : String) : TRes LogicalExpression :=
  match has with
  | .Key k =>
      .ok (.Unary .IsNotNull (.Property var k))
  | .KeyValue k v =>
      .ok (.Binary (.Property var k) .Eq (.Literal v))
  | .KeyPredicate k pred =>
      translate_predicate pred (.Property var k)
  | .LabelKeyValue label k v =>
      .ok (.Binary
        (.Binary (.Labels var) .Eq (.Literal (.String label)))
        .And
        (.Binary (.Property var k) .Eq (.Literal v)))

/-- Mirror of `GremlinTranslator::translate_by_modifier`. -/
def translate_by_modifier (b : ast.ByModifier) (current_var : String) : LogicalExpression :=
  match b with
  | .Identity => .Variable current_var
  | .Key k => .Property current_var k
  | .Token t =>
      match t with
      | .Id => .Id current_var
      | .Label => .Labels current_var
      | .OtherTok => .Variable current_var
  | .OtherBy => .Variable current_var

/-- Mirror of `GremlinTranslator::translate_source`. -/
def translate_source (source : ast.TraversalSource) (st : TState) :
    TRes (LogicalOperator × TState) :=
  match source with
  | .V ids =>
      let r := nv st
      let plan : LogicalOperator := .NodeScan r.1 none none
      let plan2 :=
        match ids with
        | some l => if l.isEmpty then plan else .Filter (build_id_filter r.1 l) plan
        | none => plan
      .ok (plan2, r.2)
  | .E ids =>
      let r := nv st
      let plan : LogicalOperator := .NodeScan r.1 none none
      let re := nv r.2
      let rt := nv re.2
      let plan2 : LogicalOperator :=
        .Expand r.1 rt.1 (some re.1) .Both none 1 (some 1) plan
      let plan3 :=
        match ids with
        | some l => if l.isEmpty then plan2 else .Filter (build_id_filter re.1 l) plan2
        | none => plan2
      .ok (plan3, rt.2)
  | .AddV label =>
      let r := nv st
      .ok (.CreateNode r.1 label.toList [] none, r.2)
  | .AddE _ =>
      .err "addE requires from() and to() steps"

/-- Mirror of `GremlinTranslator::translate_step`.  Returns the new plan and
the optional new current variable. -/
def translate_step (step : ast.Step) (input : LogicalOperator) (current_var : String)
    (st : TState) : TRes ((LogicalOperator × Option String) × TState) :=
  match step with
  | .Out labels =>
      let r := nv st
      .ok ((.Expand current_var r.1 none .Outgoing labels.head? 1 (some 1) input,
        some r.1), r.2)
  | .In labels =>
      let r := nv st
      .ok ((.Expand current_var r.1 none .Incoming labels.head? 1 (some 1) input,
        some r.1), r.2)
  | .Both labels =>
      let r := nv st
      .ok ((.Expand current_var r.1 none .Both labels.head? 1 (some 1) input,
        some r.1), r.2)
  | .OutE labels =>
      let re := nv st
      let rt := nv re.2
      .ok ((.Expand current_var rt.1 (some re.1) .Outgoing labels.head? 1 (some 1) input,
        some re.1), rt.2)
  | .InE labels =>
      let re := nv st
      let rt := nv re.2
      .ok ((.Expand current_var rt.1 (some re.1) .Incoming labels.head? 1 (some 1) input,
        some re.1), rt.2)
  | .BothE labels =>
      let re := nv st
      let rt := nv re.2
      .ok ((.Expand current_var rt.1 (some re.1) .Both labels.head? 1 (some 1) input,
        some re.1), rt.2)
  | .Has has_step =>
      (translate_has_step has_step current_var).bind fun pred =>
        .ok ((.Filter pred input, none), st)
  | .HasLabel labels =>
      let pred :=
        match labels with
        | [l] => LogicalExpression.Binary (.Labels current_var) .Eq (.Literal (.String l))
        | _ => LogicalExpression.Binary (.Labels current_var) .In
            (.List (labels.map (fun l => .Literal (.String l))))
      .ok ((.Filter pred input, none), st)
  | .HasId ids =>
      .ok ((.Filter (build_id_filter current_var ids) input, none), st)
  | .HasNot k =>
      .ok ((.Filter (.Unary .IsNull (.Property current_var k)) input, none), st)
  | .Dedup _ =>
      .ok ((.Distinct input, none), st)
  | .Limit n =>
      .ok ((.Limit n input, none), st)
  | .Skip n =>
      .ok ((.Skip n input, none), st)
  | .Range start stop =>
      (u64Sub stop start).bind fun d =>
        .ok ((.Limit d (.Skip start input), none), st)
  | .Values keys =>
      let items :=
        match keys with
        | [k] => [ReturnItem.mk (.Property current_var k) (some k)]
        | _ => keys.map (fun k => ReturnItem.mk (.Property current_var k) (some k))
      .ok ((.Return items false input, none), st)
  | .Id =>
      .ok ((.Return [⟨.Id current_var, some "id"⟩] false input, none), st)
  | .Label =>
      .ok ((.Return [⟨.Labels current_var, some "label"⟩] false input, none), st)
  | .Count =>
      .ok ((.Aggregate [] [⟨.Count, none, false, some "count"⟩] input, none), st)
  | .Sum =>
      .ok ((.Aggregate [] [⟨.Sum, some (.Variable current_var), false, some "sum"⟩] input,
        none), st)
  | .Mean =>
      .ok ((.Aggregate [] [⟨.Avg, some (.Variable current_var), false, some "mean"⟩] input,
        none), st)
  | .Min =>
      .ok ((.Aggregate [] [⟨.Min, some (.Variable current_var), false, some "min"⟩] input,
        none), st)
  | .Max =>
      .ok ((.Aggregate [] [⟨.Max, some (.Variable current_var), false, some "max"⟩] input,
        none), st)
  | .Fold =>
      .ok ((.Aggregate [] [⟨.Collect, some (.Variable current_var), false, some "fold"⟩]
        input, none), st)
  | .Order modifiers =>
      let keys :=
        if modifiers.isEmpty then
          [SortKey.mk (.Variable current_var) .Ascending]
        else
          modifiers.map (fun m =>
            SortKey.mk (translate_by_modifier m.byMod current_var)
              (match m.order with
                | .Asc => SortOrder.Ascending
                | .Desc => SortOrder.Descending
                | .Shuffle => SortOrder.Ascending))
      .ok ((.Sort keys input, none), st)
  | .As label =>
      .ok ((input, some label), st)
  | .Property prop_step =>
      match input with
      | .CreateNode var labels properties inp =>
          .ok ((.CreateNode var labels
            (properties ++ [(prop_step.key, .Literal prop_step.value)]) inp, none), st)
      | other =>
          .ok ((.SetProperty current_var
            [(prop_step.key, .Literal prop_step.value)] false other, none), st)
  | .Drop =>
      .ok ((.DeleteNode current_var input, none), st)
  | .AddV label =>
      let r := nv st
      .ok ((.CreateNode r.1 label.toList [] (some input), some r.1), r.2)
  | .AddE _ =>
      .ok ((input, none), st)
  | _ =>
      .ok ((input, none), st)

/-- Mirror of the `PendingEdge` context in `translate_statement`. -/
structure PendingEdge where
  edge_type : String
  from_var : Option String
  to_var : Option String
  properties : List (String × LogicalExpression)

/-- The fall-through processing of one step when the pending-edge phase did not
consume it: the step-level `addE` check followed by `translate_step`. -/
def normalStep (step : ast.Step) (plan : LogicalOperator) (cv : String)
    (pending : Option PendingEdge) (st : TState) :
    TRes ((LogicalOperator × String × Option PendingEdge) × TState) :=
  match step with
  | .AddE t2 => .ok ((plan, cv, some ⟨t2, none, none, []⟩), st)
  | _ =>
      (translate_step step plan cv st).bind fun pr =>
        .ok ((pr.1.1, pr.1.2.getD cv, pending), pr.2)

/-- The step loop of `GremlinTranslator::translate_statement`, including the
pending-edge handling and the final pending-edge flush. -/
def stepsLoop : List ast.Step → LogicalOperator → String → Option PendingEdge → TState →
    TRes ((LogicalOperator × String) × TState)
  | [], plan, cv, pending, st =>
      match pending with
      | some e =>
          match e.from_var, e.to_var with
          | some f, some t =>
              let r := nv st
              .ok ((.CreateEdge (some r.1) f t e.edge_type e.properties plan, r.1), r.2)
          | _, _ => .ok ((plan, cv), st)
      | none => .ok ((plan, cv), st)
  | step :: rest, plan, cv, pending, st =>
      match pending with
      | some e =>
          match step with
          | .From ft =>
              (extract_from_to_var ft).bind fun v =>
                stepsLoop rest plan cv
                  (some ⟨e.edge_type, some v, e.to_var, e.properties⟩) st
          | .To ft =>
              (extract_from_to_var ft).bind fun v =>
                match e.from_var with
                | some f =>
                    let r := nv st
                    stepsLoop rest
                      (.CreateEdge (some r.1) f v e.edge_type e.properties plan)
                      r.1 none r.2
                | none =>
                    stepsLoop rest plan cv
                      (some ⟨e.edge_type, e.from_var, some v, e.properties⟩) st
          | .Property ps =>
              stepsLoop rest plan cv
                (some ⟨e.edge_type, e.from_var, e.to_var,
                  e.properties ++ [(ps.key, .Literal ps.value)]⟩) st
          | other =>
              match e.from_var, e.to_var with
              | some f, some t =>
                  let r := nv st
                  (normalStep other
                      (.CreateEdge (some r.1) f t e.edge_type e.properties plan)
                      r.1 none r.2).bind fun x =>
                    stepsLoop rest x.1.1 x.1.2.1 x.1.2.2 x.2
              | _, _ =>
                  (normalStep other plan cv (some e) st).bind fun x =>
                    stepsLoop rest x.1.1 x.1.2.1 x.1.2.2 x.2
      | none =>
          (normalStep step plan cv none st).bind fun x =>
            stepsLoop rest x.1.1 x.1.2.1 x.1.2.2 x.2

/-- The accumulation loop of `translate_add_edge_traversal` over the steps. -/
def collectFromTo : List ast.Step → Option String → Option String →
    List (String × LogicalExpression) →
      TRes (Option String × Option String × List (String × LogicalExpression))
  | [], f, t, props => .ok (f, t, props)
  | .From ft :: rest, _, t, props =>
      (extract_from_to_var ft).bind fun v => collectFromTo rest (some v) t props
  | .To ft :: rest, f, _, props =>
      (extract_from_to_var ft).bind fun v => collectFromTo rest f (some v) props
  | .Property ps :: rest, f, t, props =>
      collectFromTo rest f t (props ++ [(ps.key, .Literal ps.value)])
  | _ :: rest, f, t, props => collectFromTo rest f t props

/-- Mirror of `GremlinTranslator::translate_add_edge_traversal`. -/
def translate_add_edge_traversal (edge_type : String) (steps : List ast.Step)
    (st : TState) : TRes (LogicalPlan × TState) :=
  (collectFromTo steps none none []).bind fun c =>
    match c.1 with
    | none => .err "addE requires from() step"
    | some from_var =>
        match c.2.1 with
        | none => .err "addE requires to() step"
        | some to_var =>
            let rs := nv st
            let scan : LogicalOperator := .NodeScan rs.1 none none
            let re := nv rs.2
            let create_edge : LogicalOperator :=
              .CreateEdge (some re.1) from_var to_var edge_type c.2.2 scan
            .ok (⟨.Return [⟨.Variable re.1, none⟩] false create_edge⟩, re.2)

def isReturn : LogicalOperator → Bool
  | .Return _ _ _ => true
  | _ => false

/-- The non-addE path of `translate_statement`: translate the source, read
`get_current_var` (note: after `translate_source` has already advanced the
counter), run the step loop, and wrap in a `Return` unless one is present. -/
def translate_main (src : ast.TraversalSource) (steps : List ast.Step) (st : TState) :
    TRes (LogicalPlan × TState) :=
  match translate_source src st with
  | .err m => .err m
  | .panic => .panic
  | .ok p =>
      match stepsLoop steps p.1 (get_current_var p.2) none p.2 with
      | .err m => .err m
      | .panic => .panic
      | .ok q =>
          .ok (⟨if isReturn q.1.1 then q.1.1
                else .Return [⟨.Variable q.1.2, none⟩] false q.1.1⟩, q.2)

/-- Mirror of `GremlinTranslator::translate_statement`: the `addE` source is
handled by `translate_add_edge_traversal`, every other source by the main
path (spelled per source constructor so each arm is definitionally reducible). -/
def translate_statement (stmt : ast.Statement) (st : TState) :
    TRes (LogicalPlan × TState) :=
  match stmt.source with
  | .AddE ty => translate_add_edge_traversal ty stmt.steps st
  | .V ids => translate_main (.V ids) stmt.steps st
  | .E ids => translate_main (.E ids) stmt.steps st
  | .AddV label => translate_main (.AddV label) stmt.steps st

/-! ## Variable references and bindings in a logical plan -/

mutual
/-- The variable names referenced by the `Variable`, `Property`, `Id` and
`Labels` expression forms inside an expression. -/
def exprRefs : LogicalExpression → List String
  | .Literal _ => []
  | .Variable n => [n]
  | .Property v _ => [v]
  | .Id v => [v]
  | .Labels v => [v]
  | .List es => exprRefsList es
  | .Binary l _ r => exprRefs l ++ exprRefs r
  | .Unary _ e => exprRefs e

def exprRefsList : List LogicalExpression → List String
  | [] => []
  | e :: rest => exprRefs e ++ exprRefsList rest
end

def itemsRefs (items : List ReturnItem) : List String :=
  match items with
  | [] => []
  | i :: rest => exprRefs i.expression ++ itemsRefs rest

def keysRefs (keys : List SortKey) : List String :=
  match keys with
  | [] => []
  | k :: rest => exprRefs k.expression ++ keysRefs rest

def aggsRefs (aggs : List AggregateExpr) : List String :=
  match aggs with
  | [] => []
  | a :: rest => (a.expression.map exprRefs).getD [] ++ aggsRefs rest

def propsRefs (props : List (String × LogicalExpression)) : List String :=
  match props with
  | [] => []
  | p :: rest => exprRefs p.2 ++ propsRefs rest

mutual
/-- Every `Variable`, `Property`, `Id` or `Labels` reference occurring in any
expression of the plan tree. -/
def planRefs : LogicalOperator → List String
  | .NodeScan _ _ inp => planRefsOpt inp
  | .Expand _ _ _ _ _ _ _ inp => planRefs inp
  | .Filter pred inp => exprRefs pred ++ planRefs inp
  | .Return items _ inp => itemsRefs items ++ planRefs inp
  | .Aggregate gb aggs inp => exprRefsList gb ++ aggsRefs aggs ++ planRefs inp
  | .Sort keys inp => keysRefs keys ++ planRefs inp
  | .Skip _ inp => planRefs inp
  | .Limit _ inp => planRefs inp
  | .Distinct inp => planRefs inp
  | .CreateNode _ _ props inp => propsRefs props ++ planRefsOpt inp
  | .CreateEdge _ _ _ _ props inp => propsRefs props ++ planRefs inp
  | .SetProperty _ props _ inp => propsRefs props ++ planRefs inp
  | .DeleteNode _ inp => planRefs inp

def planRefsOpt : Option LogicalOperator → List String
  | none => []
  | some p => planRefs p
end

mutual
/-- The variables bound by scan, expand and create operators of the plan tree. -/
def planBinders : LogicalOperator → List String
  | .NodeScan v _ inp => v :: planBindersOpt inp
  | .Expand _ tv ev _ _ _ _ inp => [tv] ++ ev.toList ++ planBinders inp
  | .Filter _ inp => planBinders inp
  | .Return _ _ inp => planBinders inp
  | .Aggregate _ _ inp => planBinders inp
  | .Sort _ inp => planBinders inp
  | .Skip _ inp => planBinders inp
  | .Limit _ inp => planBinders inp
  | .Distinct inp => planBinders inp
  | .CreateNode v _ _ inp => v :: planBindersOpt inp
  | .CreateEdge v _ _ _ _ inp => v.toList ++ planBinders inp
  | .SetProperty _ _ _ inp => planBinders inp
  | .DeleteNode _ inp => planBinders inp

def planBindersOpt : Option LogicalOperator → List String
  | none => []
  | some p => planBinders p
end

/-- The references of a successful translation's plan. -/
def resultRefs : TRes (LogicalPlan × TState) → List String
  | .ok r => planRefs r.1.root
  | _ => []

/-- The binders of a successful translation's plan. -/
def resultBinders : TRes (LogicalPlan × TState) → List String
  | .ok r => planBinders r.1.root
  | _ => []

/-- C3 (code bug): translating `g.V().has('name','Alice')` succeeds, but the
resulting plan's Filter predicate references `_v1` while the only binder in the
tree is the NodeScan's `_v0`: `get_current_var` reads the variable counter
after `translate_source` has already incremented it, so the property reference
does not name the variable bound by the NodeScan beneath it and the plan
contains an unbound variable reference. -/
theorem c3_unbound_reference :
    translate_statement ⟨.V none, [.Has (.KeyValue "name" (.String "Alice"))]⟩ ⟨0, []⟩ =
      .ok (⟨.Return [⟨.Variable "_v1", none⟩] false
        (.Filter (.Binary (.Property "_v1" "name") .Eq (.Literal (.String "Alice")))
          (.NodeScan "_v0" none none))⟩, ⟨1, ["_v0"]⟩) ∧
    "_v1" ∈ resultRefs
      (translate_statement ⟨.V none, [.Has (.KeyValue "name" (.String "Alice"))]⟩ ⟨0, []⟩) ∧
    resultBinders
      (translate_statement ⟨.V none, [.Has (.KeyValue "name" (.String "Alice"))]⟩ ⟨0, []⟩)
      = ["_v0"] ∧
    ("_v1" : String) ∉ (["_v0"] : List String) := by
  refine ⟨rfl, ?_, rfl, by decide⟩
  show ("_v1" : String) ∈ ["_v1", "_v1"]
  decide

/-- C10 (code bug): translating `range(start, end)` produces Skip(start)
beneath Limit(end - start), but the unsigned subtraction underflows when
`end < start`: `g.V().range(5, 1)` panics (in release builds the count wraps),
so translation of parsed statements is not total. -/
theorem c10_range_underflow :
    translate_statement ⟨.V none, [.Range 5 1]⟩ ⟨0, []⟩ = .panic ∧
    translate_statement ⟨.V none, [.Range 5 15]⟩ ⟨0, []⟩ =
      .ok (⟨.Return [⟨.Variable "_v1", none⟩] false
        (.Limit 10 (.Skip 5 (.NodeScan "_v0" none none)))⟩, ⟨1, ["_v0"]⟩) := by
  exact ⟨rfl, rfl⟩

/-! ## Claim C7: `addE` requires label-based `from` and `to` -/

def isFromStep : ast.Step → Bool
  | .From _ => true
  | _ => false

def isToStep : ast.Step → Bool
  | .To _ => true
  | _ => false

def isTraversalFromTo : ast.Step → Bool
  | .From (.Traversal _) => true
  | .To (.Traversal _) => true
  | _ => false

theorem collect_no_from (steps : List ast.Step) :
    ∀ (t : Option String) (props : List (String × LogicalExpression)),
      (∀ s ∈ steps, isFromStep s = false) →
      (∃ m, collectFromTo steps none t props = .err m) ∨
      (∃ t2 props2, collectFromTo steps none t props = .ok (none, t2, props2)) := by
  induction steps with
  | nil =>
      intro t props _
      exact Or.inr ⟨t, props, rfl⟩
  | cons s rest ih =>
      intro t props h
      have htail : ∀ x ∈ rest, isFromStep x = false :=
        fun x hx => h x (List.mem_cons_of_mem _ hx)
      cases s
      case From ft => exact absurd (h _ (List.mem_cons_self _ _)) (by simp [isFromStep])
      case To ft =>
        cases ft with
        | Label l => exact ih (some l) props htail
        | Traversal ts => exact Or.inl ⟨_, rfl⟩
      case Property ps => exact ih t _ htail
      all_goals exact ih t props htail

theorem collect_no_to (steps : List ast.Step) :
    ∀ (f : Option String) (props : List (String × LogicalExpression)),
      (∀ s ∈ steps, isToStep s = false) →
      (∃ m, collectFromTo steps f none props = .err m) ∨
      (∃ f2 props2, collectFromTo steps f none props = .ok (f2, none, props2)) := by
  induction steps with
  | nil =>
      intro f props _
      exact Or.inr ⟨f, props, rfl⟩
  | cons s rest ih =>
      intro f props h
      have htail : ∀ x ∈ rest, isToStep x = false :=
        fun x hx => h x (List.mem_cons_of_mem _ hx)
      cases s
      case To ft => exact absurd (h _ (List.mem_cons_self _ _)) (by simp [isToStep])
      case From ft =>
        cases ft with
        | Label l => exact ih (some l) props htail
        | Traversal ts => exact Or.inl ⟨_, rfl⟩
      case Property ps => exact ih f _ htail
      all_goals exact ih f props htail

theorem collect_traversal (steps : List ast.Step) :
    ∀ (f t : Option String) (props : List (String × LogicalExpression)),
      (∃ s ∈ steps, isTraversalFromTo s = true) →
      ∃ m, collectFromTo steps f t props = .err m := by
  induction steps with
  | nil =>
      intro f t props h
      obtain ⟨s, hs, _⟩ := h
      cases hs
  | cons s rest ih =>
      intro f t props h
      obtain ⟨s0, hs0, htr⟩ := h
      rcases List.mem_cons.mp hs0 with rfl | hmem
      · cases s0
        case From ft =>
          cases ft with
          | Label l => simp [isTraversalFromTo] at htr
          | Traversal ts => exact ⟨_, rfl⟩
        case To ft =>
          cases ft with
          | Label l => simp [isTraversalFromTo] at htr
          | Traversal ts => exact ⟨_, rfl⟩
        all_goals simp [isTraversalFromTo] at htr
      · have hrest : ∃ x ∈ rest, isTraversalFromTo x = true := ⟨s0, hmem, htr⟩
        cases s
        case From ft =>
          cases ft with
          | Label l => exact ih (some l) t props hrest
          | Traversal ts => exact ⟨_, rfl⟩
        case To ft =>
          cases ft with
          | Label l => exact ih f (some l) props hrest
          | Traversal ts => exact ⟨_, rfl⟩
        case Property ps => exact ih f t _ hrest
        all_goals exact ih f t props hrest

/-- C7: translating `g.addE(type)...` errors when the `from()` step is missing,
when the `to()` step is missing, or when a `from()`/`to()` argument is an inner
traversal rather than a label reference; with label references
`g.addE(type).from(a).to(b)` succeeds and produces a CreateEdge whose
from-variable is `a` and whose to-variable is `b`, under a Return of the new
edge variable. -/
theorem c7_add_edge_from_to (ty a b : String) (steps : List ast.Step) (st : TState) :
    ((∀ s ∈ steps, isFromStep s = false) →
      ∃ m, translate_statement ⟨.AddE ty, steps⟩ st = .err m) ∧
    ((∀ s ∈ steps, isToStep s = false) →
      ∃ m, translate_statement ⟨.AddE ty, steps⟩ st = .err m) ∧
    ((∃ s ∈ steps, isTraversalFromTo s = true) →
      ∃ m, translate_statement ⟨.AddE ty, steps⟩ st = .err m) ∧
    (translate_statement ⟨.AddE ty, [.From (.Label a), .To (.Label b)]⟩ st =
      .ok (⟨.Return [⟨.Variable (mkAnon (st.counter + 1)), none⟩] false
        (.CreateEdge (some (mkAnon (st.counter + 1))) a b ty []
          (.NodeScan (mkAnon st.counter) none none))⟩,
        ⟨st.counter + 2, (st.gens ++ [mkAnon st.counter]) ++ [mkAnon (st.counter + 1)]⟩)) := by
  refine ⟨?_, ?_, ?_, ?_⟩
  · intro h
    show ∃ m, translate_add_edge_traversal ty steps st = .err m
    rcases collect_no_from steps none [] h with ⟨m, hm⟩ | ⟨t2, props2, hok⟩
    · exact ⟨m, by rw [translate_add_edge_traversal, hm]; rfl⟩
    · exact ⟨_, by rw [translate_add_edge_traversal, hok]; rfl⟩
  · intro h
    show ∃ m, translate_add_edge_traversal ty steps st = .err m
    rcases collect_no_to steps none [] h with ⟨m, hm⟩ | ⟨f2, props2, hok⟩
    · exact ⟨m, by rw [translate_add_edge_traversal, hm]; rfl⟩
    · rcases f2 with _ | fv
      · exact ⟨_, by rw [translate_add_edge_traversal, hok]; rfl⟩
      · exact ⟨_, by rw [translate_add_edge_traversal, hok]; rfl⟩
  · intro h
    obtain ⟨m, hm⟩ := collect_traversal steps none none [] h
    exact ⟨m, by show (collectFromTo steps none none []).bind _ = _; rw [hm]; rfl⟩
  · rfl

/-- Witness for C7: the three error cases and the successful case at concrete
inputs. -/
theorem c7_add_edge_from_to_witness :
    (∃ m, translate_statement ⟨.AddE "knows", [.To (.Label "b")]⟩ ⟨0, []⟩ = .err m) ∧
    (∃ m, translate_statement ⟨.AddE "knows", [.From (.Label "a")]⟩ ⟨0, []⟩ = .err m) ∧
    (∃ m, translate_statement ⟨.AddE "knows", [.From (.Traversal [])]⟩ ⟨0, []⟩ = .err m) ∧
    (translate_statement ⟨.AddE "knows", [.From (.Label "a"), .To (.Label "b")]⟩ ⟨0, []⟩ =
      .ok (⟨.Return [⟨.Variable "_v1", none⟩] false
        (.CreateEdge (some "_v1") "a" "b" "knows" [] (.NodeScan "_v0" none none))⟩,
        ⟨2, ["_v0", "_v1"]⟩)) := by
  have h1 := c7_add_edge_from_to "knows" "a" "b" [.To (.Label "b")] ⟨0, []⟩
  have h2 := c7_add_edge_from_to "knows" "a" "b" [.From (.Label "a")] ⟨0, []⟩
  have h3 := c7_add_edge_from_to "knows" "a" "b" [.From (.Traversal [])] ⟨0, []⟩
  have h4 := c7_add_edge_from_to "knows" "a" "b" [] ⟨0, []⟩
  refine ⟨h1.1 ?_, h2.2.1 ?_, h3.2.2.1 ?_, h4.2.2.2⟩
  · intro s hs
    simp at hs
    subst hs
    rfl
  · intro s hs
    simp at hs
    subst hs
    rfl
  · exact ⟨.From (.Traversal []), by simp, rfl⟩

/-! ## Claim C8: anonymous variable generation -/

/-- The state invariant: the ghost log holds exactly the names `_v0 .. _v(c-1)`
for the current counter value `c`. -/
def StOk (st : TState) : Prop := st.gens = (List.range st.counter).map mkAnon

theorem stok_nv {st : TState} (h : StOk st) : StOk (nv st).2 := by
  unfold StOk nv at *
  simp [h, List.range_succ]

theorem tres_bind_ok {α β : Type _} {r : TRes α} {f : α → TRes β} {b : β}
    (h : r.bind f = .ok b) : ∃ a, r = .ok a ∧ f a = .ok b := by
  cases r with
  | ok a => exact ⟨a, rfl, h⟩
  | err m => exact TRes.noConfusion h
  | panic => exact TRes.noConfusion h

theorem ok_state_eq {α : Type _} {x : α} {s1 : TState} {q : α × TState}
    (h : (TRes.ok (x, s1) : TRes (α × TState)) = .ok q) : q.2 = s1 := by
  injection h with h2
  rw [← h2]

theorem translate_source_pres (src : ast.TraversalSource) (st : TState)
    (p : LogicalOperator × TState) (hok : translate_source src st = .ok p) (h : StOk st) :
    StOk p.2 ∧ st.counter ≤ p.2.counter := by
  cases src with
  | V ids =>
      rw [ok_state_eq hok]
      exact ⟨stok_nv h, Nat.le_succ _⟩
  | E ids =>
      rw [ok_state_eq hok]
      exact ⟨stok_nv (stok_nv (stok_nv h)), Nat.le_add_right _ 3⟩
  | AddV label =>
      rw [ok_state_eq hok]
      exact ⟨stok_nv h, Nat.le_succ _⟩
  | AddE t => exact TRes.noConfusion hok

theorem translate_step_pres (step : ast.Step) (input : LogicalOperator) (cv : String)
    (st : TState) (q : (LogicalOperator × Option String) × TState)
    (hok : translate_step step input cv st = .ok q) (h : StOk st) :
    StOk q.2 ∧ st.counter ≤ q.2.counter := by
  cases step
  case Has has_step =>
      obtain ⟨e, _, hx⟩ := tres_bind_ok hok
      rw [ok_state_eq hx]
      exact ⟨h, Nat.le_refl _⟩
  case Range start stop =>
      obtain ⟨d, _, hx⟩ := tres_bind_ok hok
      rw [ok_state_eq hx]
      exact ⟨h, Nat.le_refl _⟩
  case Property prop_step =>
      cases input <;> (rw [ok_state_eq hok]; exact ⟨h, Nat.le_refl _⟩)
  all_goals first
    | (rw [ok_state_eq hok]; exact ⟨h, Nat.le_refl _⟩)
    | (rw [ok_state_eq hok]; exact ⟨stok_nv h, Nat.le_succ _⟩)
    | (rw [ok_state_eq hok]; exact ⟨stok_nv (stok_nv h), Nat.le_add_right _ 2⟩)

theorem normalStep_pres (s : ast.Step) (plan : LogicalOperator) (cv : String)
    (pending : Option PendingEdge) (st : TState)
    (x : (LogicalOperator × String × Option PendingEdge) × TState)
    (hok : normalStep s plan cv pending st = .ok x) (h : StOk st) :
    StOk x.2 ∧ st.counter ≤ x.2.counter := by
  unfold normalStep at hok
  split at hok
  · rw [ok_state_eq hok]
    exact ⟨h, Nat.le_refl _⟩
  · obtain ⟨pr, hts, hx⟩ := tres_bind_ok hok
    rw [ok_state_eq hx]
    exact translate_step_pres _ _ _ _ _ hts h

theorem stepsLoop_pres (steps : List ast.Step) :
    ∀ (plan : LogicalOperator) (cv : String) (pending : Option PendingEdge) (st : TState)
      (q : (LogicalOperator × String) × TState),
      stepsLoop steps plan cv pending st = .ok q → StOk st →
      StOk q.2 ∧ st.counter ≤ q.2.counter := by
  induction steps with
  | nil =>
      intro plan cv pending st q hok h
      rcases pending with _ | ⟨ety, ef, et, eprops⟩
      · rw [ok_state_eq hok]
        exact ⟨h, Nat.le_refl _⟩
      · rcases ef with _ | f <;> rcases et with _ | t
        · rw [ok_state_eq hok]
          exact ⟨h, Nat.le_refl _⟩
        · rw [ok_state_eq hok]
          exact ⟨h, Nat.le_refl _⟩
        · rw [ok_state_eq hok]
          exact ⟨h, Nat.le_refl _⟩
        · rw [ok_state_eq hok]
          exact ⟨stok_nv h, Nat.le_succ _⟩
  | cons s rest ih =>
      intro plan cv pending st q hok h
      rcases pending with _ | ⟨ety, ef, et, eprops⟩
      · obtain ⟨x, hns, hrest⟩ := tres_bind_ok hok
        obtain ⟨h1, h2⟩ := normalStep_pres _ _ _ _ _ _ hns h
        obtain ⟨h3, h4⟩ := ih _ _ _ _ _ hrest h1
        exact ⟨h3, le_trans h2 h4⟩
      · simp only [stepsLoop] at hok
        split at hok
        · obtain ⟨v, _, hrest⟩ := tres_bind_ok hok
          exact ih _ _ _ _ _ hrest h
        · obtain ⟨v, _, hrest⟩ := tres_bind_ok hok
          split at hrest
          · obtain ⟨h3, h4⟩ := ih _ _ _ _ _ hrest (stok_nv h)
            exact ⟨h3, le_trans (Nat.le_succ _) h4⟩
          · exact ih _ _ _ _ _ hrest h
        · exact ih _ _ _ _ _ hok h
        · split at hok
          · obtain ⟨x, hns, hrest⟩ := tres_bind_ok hok
            obtain ⟨h1, h2⟩ := normalStep_pres _ _ _ _ _ _ hns (stok_nv h)
            obtain ⟨h3, h4⟩ := ih _ _ _ _ _ hrest h1
            exact ⟨h3, le_trans (Nat.le_succ _) (le_trans h2 h4)⟩
          · obtain ⟨x, hns, hrest⟩ := tres_bind_ok hok
            obtain ⟨h1, h2⟩ := normalStep_pres _ _ _ _ _ _ hns h
            obtain ⟨h3, h4⟩ := ih _ _ _ _ _ hrest h1
            exact ⟨h3, le_trans h2 h4⟩

theorem range_map_append {c c2 : ℕ} (hle : c ≤ c2) :
    (List.range c2).map mkAnon =
      (List.range c).map mkAnon ++
        (List.range (c2 - c)).map (fun i => mkAnon (c + i)) := by
  conv_lhs => rw [← Nat.add_sub_cancel' hle]
  rw [List.range_add, List.map_append, List.map_map]
  rfl

/-- C8 (amended): within one translation the anonymous variables are generated
as `_v0, _v1, …` from a counter unique to the translation, one increment per
generated variable — starting from counter value `c`, a successful translation
ends at some `c2 ≥ c` having generated exactly `_v c, …, _v (c2 - 1)` in that
order — and every generated name starts with the prefix `_v`, so a generated
variable can only equal a user-supplied name that itself has the `_v…` form
(which the translator does nothing to prevent; see the collision example). -/
theorem c8_anonymous_vars (stmt : ast.Statement) (st : TState) (h : StOk st) :
    ∀ r st2, translate_statement stmt st = .ok (r, st2) →
      StOk st2 ∧ st.counter ≤ st2.counter ∧
      st2.gens = st.gens ++
        (List.range (st2.counter - st.counter)).map (fun i => mkAnon (st.counter + i)) ∧
      ∀ g ∈ st2.gens, ∃ t, g = "_v" ++ t := by
  intro r st2 hok
  obtain ⟨src, steps⟩ := stmt
  have main : StOk st2 ∧ st.counter ≤ st2.counter := by
    cases src
    case AddE ty =>
        obtain ⟨c, _, hrest⟩ := tres_bind_ok hok
        obtain ⟨f1, t1, props1⟩ := c
        rcases f1 with _ | fv
        · exact TRes.noConfusion hrest
        · rcases t1 with _ | tv
          · exact TRes.noConfusion hrest
          · have hst2 : (r, st2).2 = (nv (nv st).2).2 := ok_state_eq hrest
            simp only at hst2
            rw [hst2]
            exact ⟨stok_nv (stok_nv h), Nat.le_add_right _ 2⟩
    all_goals (
      unfold translate_statement translate_main at hok
      simp only at hok
      split at hok
      · exact TRes.noConfusion hok
      · exact TRes.noConfusion hok
      · rename_i p hsrc
        split at hok
        · exact TRes.noConfusion hok
        · exact TRes.noConfusion hok
        · rename_i q2 hloop
          have hst2 : (r, st2).2 = q2.2 := ok_state_eq hok
          simp only at hst2
          rw [hst2]
          obtain ⟨h1, h2⟩ := translate_source_pres _ _ _ hsrc h
          obtain ⟨h3, h4⟩ := stepsLoop_pres _ _ _ _ _ _ hloop h1
          exact ⟨h3, le_trans h2 h4⟩)
  refine ⟨main.1, main.2, ?_, ?_⟩
  · rw [main.1, h, range_map_append main.2]
  · intro g hg
    rw [main.1] at hg
    obtain ⟨i, _, rfl⟩ := List.mem_map.mp hg
    exact ⟨natStr i, rfl⟩

/-- Witness for C8: translating `g.V().out()` from a fresh translator
generates exactly `_v0` then `_v1`. -/
theorem c8_anonymous_vars_witness :
    StOk (⟨0, []⟩ : TState) ∧
    StOk (⟨2, ["_v0", "_v1"]⟩ : TState) ∧
    (⟨2, ["_v0", "_v1"]⟩ : TState).gens =
      ([] : List String) ++ (List.range (2 - 0)).map (fun i => mkAnon (0 + i)) := by
  have h0 : StOk (⟨0, []⟩ : TState) := rfl
  have h := c8_anonymous_vars ⟨.V none, [.Out []]⟩ ⟨0, []⟩ h0 _ ⟨2, ["_v0", "_v1"]⟩ rfl
  exact ⟨h0, h.1, h.2.2.1⟩

def gensOf : TRes (LogicalPlan × TState) → List String
  | .ok r => r.2.gens
  | _ => []

/-- C8 counterexample: nothing prevents a collision with a user-supplied name
of the `_vN` form.  Translating `g.V().as('_v1').out()` generates the
anonymous variables `_v0` and `_v1`, and the second one equals the
user-supplied `as`-label `_v1` appearing in the statement. -/
theorem c8_user_name_collision :
    gensOf (translate_statement ⟨.V none, [.As "_v1", .Out []]⟩ ⟨0, []⟩) = ["_v0", "_v1"] ∧
    mkAnon 1 = "_v1" := by
  exact ⟨rfl, rfl⟩

end Grafeo
